import Mathlib

/-!
Verification of the `cheerio` repository (Go): a PyPI crawl-and-extract
pipeline.  We shallowly embed the three source files

  * `pypiquery/query.go`  — requirement parsing, artifact selection, the
    dependency-graph snapshot decoder,
  * `cheerio/repo.go`     — repository-URI resolution via a regex cascade
    plus a static override table,
  * `util/util.go`        — remote archive extraction,

and prove the specified properties about the embeddings.  Go regular
expressions are embedded via a small backtracking engine with Go's
leftmost-first (Perl-style) match-and-capture semantics; each Go pattern
is transcribed as an explicit syntax tree.  Network, process and file
effects are passed in as explicit outcome values.
-/

namespace Cheerio

/-! ## A tiny regex engine with leftmost-first semantics and captures

Go's `regexp` package guarantees: the returned match begins as early as
possible in the input, and among those is the one a backtracking search
(greedy quantifiers, ordered alternation) finds first.  `FindStringSubmatch`
additionally reports capture groups; an unparticipating group reports the
empty string.  The engine below implements exactly that on `List Char`. -/

/-- Regex syntax trees: empty word, single-character predicate (character
classes and literals), concatenation, ordered alternation (left first),
greedy Kleene star, and numbered capture groups. -/
inductive RE where
  | eps : RE
  | pred (p : Char → Bool) : RE
  | cat (a b : RE) : RE
  | alt (a b : RE) : RE
  | star (a : RE) : RE
  | group (idx : Nat) (a : RE) : RE

/-- Capture environment: group index ↦ last captured text. -/
def Caps := List (Nat × List Char)

/-- A successful overall match: the remaining input and captures. -/
def MatchRes := List Char × Caps

/-- Overwrite (or add) the capture for group `i` (Go keeps the last
capture of each group). -/
def setCap : Caps → Nat → List Char → Caps
  | [], i, v => [(i, v)]
  | (j, w) :: rest, i, v =>
    if j = i then (i, v) :: rest else (j, w) :: setCap rest i v

/-- Read a capture; unparticipating groups read as empty (Go reports `""`). -/
def getCap (caps : Caps) (i : Nat) : List Char :=
  match caps with
  | [] => []
  | (j, w) :: rest => if j = i then w else getCap rest i

/-- One level of the backtracking matcher, in continuation-passing style and
structurally recursive over the regex.  `k` receives the input remaining
after the current expression and the captures so far.  Greedy `star` tries to
consume another iteration first and falls back to the continuation;
an iteration that consumes nothing is cut off (as in Go/Perl), and further
iterations restart one fuel level down through `rec`. -/
def mgo (rec : RE → List Char → Caps → (List Char → Caps → Option MatchRes) →
      Option MatchRes) :
    RE → List Char → Caps → (List Char → Caps → Option MatchRes) →
      Option MatchRes
  | .eps, s, caps, k => k s caps
  | .pred _, [], _, _ => none
  | .pred p, c :: rest, caps, k => if p c then k rest caps else none
  | .cat a b, s, caps, k =>
    mgo rec a s caps fun s1 c1 => mgo rec b s1 c1 k
  | .alt a b, s, caps, k =>
    match mgo rec a s caps k with
    | some r => some r
    | none => mgo rec b s caps k
  | .star a, s, caps, k =>
    match mgo rec a s caps (fun s1 c1 =>
        if s1.length < s.length then rec (.star a) s1 c1 k else none) with
    | some r => some r
    | none => k s caps
  | .group i a, s, caps, k =>
    mgo rec a s caps fun s1 c1 =>
      k s1 (setCap c1 i (s.take (s.length - s1.length)))

/-- The backtracking matcher.  `fuel` bounds the nesting depth of star
unfoldings; every retained star iteration consumes at least one character, so
any fuel exceeding the input length is enough, and exhausted fuel is a
failure (unreachable at adequate fuel). -/
def mmatch : Nat → RE → List Char → Caps →
    (List Char → Caps → Option MatchRes) → Option MatchRes
  | 0, _, _, _, _ => none
  | f + 1, re, s, caps, k => mgo (mmatch f) re s caps k

/-- Scan start positions left to right (leftmost match); at the first position
where the backtracking matcher succeeds, report the matched text (`match[0]`)
and the captures. -/
def reFindAux (r : RE) (fuel : Nat) : List Char → Option (List Char × Caps)
  | [] =>
    match mmatch fuel r [] [] (fun rest caps => some (rest, caps)) with
    | some (rest, caps) => some (List.take (0 - rest.length) [], caps)
    | none => none
  | c :: t =>
    match mmatch fuel r (c :: t) [] (fun rest caps => some (rest, caps)) with
    | some (rest, caps) =>
      some (List.take ((c :: t).length - rest.length) (c :: t), caps)
    | none => reFindAux r fuel t

/-- Embedding of Go `Regexp.FindStringSubmatch` (up to the representation of
submatches as a capture environment). -/
def reFind (r : RE) (s : List Char) : Option (List Char × Caps) :=
  reFindAux r (s.length + 1) s

/-- Embedding of Go `Regexp.MatchString`. -/
def reMatch (r : RE) (s : List Char) : Bool :=
  (reFind r s).isSome

/-- Single-character literal. -/
def chrRE (c : Char) : RE := .pred (fun d => d == c)

/-- String literal, as a concatenation of character literals. -/
def strRE (l : List Char) : RE := l.foldr (fun c r => .cat (chrRE c) r) .eps

/-- Greedy `p+`. -/
def plusRE (p : Char → Bool) : RE := .cat (.pred p) (.star (.pred p))

/-- Greedy `e?`. -/
def optRE (a : RE) : RE := .alt a .eps

/-! ## Character classes used by the Go patterns -/

/-- Go class `[A-Za-z0-9._-]` (package-name characters). -/
def nameClass (c : Char) : Bool :=
  ('A' ≤ c && c ≤ 'Z') || ('a' ≤ c && c ≤ 'z') || ('0' ≤ c && c ≤ '9') ||
  c == '.' || c == '_' || c == '-'

/-- Go class `[0-9.]` (version characters). -/
def verClass (c : Char) : Bool := ('0' ≤ c && c ≤ '9') || c == '.'

/-- Go/RE2 `\s`, which is exactly `[\t\n\f\r ]` (code points 9, 10, 12,
13, 32). -/
def reSpace (c : Char) : Bool :=
  [9, 10, 12, 13, 32].contains c.toNat

/-- Go class `[/A-Za-z0-9._-]` (path characters in `tarRegexp`). -/
def fileClass (c : Char) : Bool := c == '/' || nameClass c

/-- Go class `[^/\n]`. -/
def hostClass (c : Char) : Bool := !(c == '/' || c == '\n')

/-- Go `.` (any character except newline). -/
def dotClass (c : Char) : Bool := !(c == '\n')

/-- Go `unicode.IsSpace`, used by `strings.TrimSpace`: the Unicode
White_Space code points (tab through carriage return, space, NEL, NBSP,
OGHAM space, the U+2000 block, and the remaining fixed code points). -/
def goIsSpace (c : Char) : Bool :=
  [9, 10, 11, 12, 13, 32, 0x85, 0xA0, 0x1680,
    0x2028, 0x2029, 0x202F, 0x205F, 0x3000].contains c.toNat
  || (0x2000 ≤ c.toNat && c.toNat ≤ 0x200A)

/-! ## `pypiquery/query.go`: the requirement parser and artifact selection -/

/-- Go `tarRegexp = [/A-Za-z0-9._-]+\.tar\.gz` (unanchored). -/
def tarRE : RE := .cat (plusRE fileClass) (strRE ".tar.gz".data)

/-- The operator alternation `(==|>=|>)` (submatch 3's body). -/
def opRE : RE := .alt (strRE "==".data) (.alt (strRE ">=".data) (strRE ">".data))

/-- The bracketed extra `\[([A-Za-z0-9._-]+)\]` (with submatch 2). -/
def extraRE : RE :=
  .cat (chrRE '[') (.cat (.group 2 (plusRE nameClass)) (chrRE ']'))

/-- The constraint `(==|>=|>)\s*([0-9.]+)` (submatches 3 and 4). -/
def constrRE : RE :=
  .cat (.group 3 opRE) (.cat (.star (.pred reSpace)) (.group 4 (plusRE verClass)))

/-- Go `requirementRegexp =
`([A-Za-z0-9._-]+)(?:\[([A-Za-z0-9._-]+)\])?\s*(?:(==|>=|>)\s*([0-9.]+))?`. -/
def requirementRE : RE :=
  .cat (.group 1 (plusRE nameClass))
    (.cat (optRE extraRE)
      (.cat (.star (.pred reSpace)) (optRE constrRE)))

/-- Go struct `Requirement` (`query.go`): only `Name`, `Constraint`,
`Version` — the regex's bracketed "extra" group (submatch 2) has no field. -/
structure Requirement where
  Name : String
  Constraint : String
  Version : String
deriving DecidableEq, Repr

/-- Go `strings.TrimSpace` on the character list of a string. -/
def goTrim (l : List Char) : List Char :=
  ((l.dropWhile goIsSpace).reverse.dropWhile goIsSpace).reverse

/-- Embedding of `parseRequirement` (`query.go`): trim, run
`requirementRegexp.FindStringSubmatch`, fail if there is no match
(`len(match) != 5`) or the match is not the whole trimmed string
(`match[0] != reqStr`), else build the `Requirement` from submatches
1, 3 and 4 (submatch 2 — the extra — is dropped by the Go code). -/
def parseRequirement (reqStr : String) : Except String Requirement :=
  match reFind requirementRE (goTrim reqStr.data) with
  | none => .error "Expected match of length 5"
  | some (m0, caps) =>
    if m0 ≠ goTrim reqStr.data then
      .error "Unable to parse requirement from string"
    else .ok { Name := ⟨getCap caps 1⟩, Constraint := ⟨getCap caps 3⟩,
               Version := ⟨getCap caps 4⟩ }

/-- Go `tarRegexp.MatchString(f)`. -/
def tarMatch (f : String) : Bool := reMatch tarRE f.data

/-- The downward index loop of `lastTar`: `for f := len(files)-1; f >= 0; f--`. -/
def lastTarAux (files : List String) : Nat → String
  | 0 => ""
  | n + 1 =>
    if tarMatch (files.getD n "") then files.getD n "" else lastTarAux files n

/-- Embedding of `lastTar` (`query.go`): scan the file list from the end and
return the first entry matched by `tarRegexp`, or `""` if none. -/
def lastTar (files : List String) : String := lastTarAux files files.length

/-! ## `pypiquery/query.go`: the snapshot decoder `NewPyPIGraph` -/

/-- Association-list embedding of a Go `map[string][]string` (only lookup,
insert and update are used by the source). -/
def SMap := List (String × List String)

/-- Lookup, `m[k]`. -/
def lookupSM (m : SMap) (k : String) : Option (List String) :=
  match m with
  | [] => none
  | (k', v) :: rest => if k' = k then some v else lookupSM rest k

/-- Store, `m[k] = v` (overwrite or add). -/
def setSM : SMap → String → List String → SMap
  | [], k, v => [(k, v)]
  | (k', w) :: rest, k, v =>
    if k' = k then (k, v) :: rest else (k', w) :: setSM rest k v

/-- Go idiom `if _, in := m[k]; !in { m[k] = make([]string, 0) };
m[k] = append(m[k], x)`. -/
def appendSM (m : SMap) (k : String) (x : String) : SMap :=
  setSM m k (((lookupSM m k).getD []) ++ [x])

/-- Go idiom `if _, in := m[k]; !in { m[k] = make([]string, 0) }`. -/
def ensureSM (m : SMap) (k : String) : SMap :=
  match lookupSM m k with
  | some _ => m
  | none => setSM m k []

/-- Go struct `PyPIGraph`. -/
structure PyPIGraph where
  Req : SMap
  ReqBy : SMap

/-- Go `strings.Split(s, sep)` for a single-character separator: the list of
substrings between occurrences of `sep` (never empty; `n+1` parts for `n`
occurrences). -/
def splitChar (sep : Char) : List Char → List (List Char)
  | [] => [[]]
  | c :: rest =>
    let r := splitChar sep rest
    if c = sep then [] :: r else (c :: r.headD []) :: r.tail

/-- The package on the left of a `pkg:dep` edge line
(`lineSplit[0]` in the source). -/
def edgePkg (line : String) : String := ⟨(splitChar ':' line.data).getD 0 []⟩

/-- The package on the right of a `pkg:dep` edge line
(`lineSplit[1]` in the source). -/
def edgeDep (line : String) : String := ⟨(splitChar ':' line.data).getD 1 []⟩

/-- One iteration of the `NewPyPIGraph` read loop on one decoded line:
Go `strings.Contains(line, ":")` is `line.data.contains ':'` and
`strings.Split(line, ":")` is `splitChar ':' line.data`. -/
def graphLine (g : PyPIGraph) (line : String) : PyPIGraph :=
  if line.data.contains ':' then
    if (splitChar ':' line.data).length = 2 then
      { Req := appendSM g.Req (edgePkg line) (edgeDep line),
        ReqBy := appendSM g.ReqBy (edgeDep line) (edgePkg line) }
    else g
  else if line ≠ "" then
    { Req := ensureSM g.Req line, ReqBy := ensureSM g.ReqBy line }
  else g

/-- Embedding of the successfully-opened-file path of `NewPyPIGraph`
(`query.go`): fold the read loop over the decoded lines of the snapshot
file, starting from empty `Req`/`ReqBy` maps.  (An `os.Open` failure
returns an error before any line is processed and builds no graph.) -/
def newPyPIGraph (lines : List String) : PyPIGraph :=
  lines.foldl graphLine ⟨[], []⟩

/-- Reading `Req[pkg]` as a query does (a missing key reads as the empty slice). -/
def reqOf (g : PyPIGraph) (pkg : String) : List String :=
  (lookupSM g.Req pkg).getD []

/-- Reading `ReqBy[pkg]` as a query does. -/
def reqByOf (g : PyPIGraph) (pkg : String) : List String :=
  (lookupSM g.ReqBy pkg).getD []

/-! ## `cheerio/repo.go`: repository-URI resolution

The Go patterns (note: the source writes `(:?...)` — a *capturing* group
containing an optional literal colon — where `(?:...)` was presumably
intended, and the dots in `github.com` / `bitbucket.org` / `code.google.com`
are unescaped metacharacters; both quirks are reproduced below):

  `Home-page: (https?://github.com/(:?[^/\n]+)/(:?[^/\n]+))(:?/.*)?\n`
  `Home-page: (https?://bitbucket.org/(:?[^/\n]+)/(:?[^/\n]+))(:?/.*)?\n`
  `Home-page: (https?://code.google.com/p/(:?[^/\n]+))(:?/.*)?\n`
  `Home-page: (.+)\n`
-/

/-- Pattern `repoPatterns[0]` (github). -/
def githubRE : RE :=
  .cat (strRE "Home-page: ".data)
    (.cat (.group 1 (.cat (strRE "http".data) (.cat (optRE (chrRE 's'))
        (.cat (strRE "://github".data) (.cat (.pred dotClass)
          (.cat (strRE "com/".data)
            (.cat (.group 2 (.cat (optRE (chrRE ':')) (plusRE hostClass)))
              (.cat (chrRE '/')
                (.group 3 (.cat (optRE (chrRE ':')) (plusRE hostClass)))))))))))
      (.cat (optRE (.group 4 (.cat (optRE (chrRE ':'))
          (.cat (chrRE '/') (.star (.pred dotClass))))))
        (chrRE '\n')))

/-- Pattern `repoPatterns[1]` (bitbucket). -/
def bitbucketRE : RE :=
  .cat (strRE "Home-page: ".data)
    (.cat (.group 1 (.cat (strRE "http".data) (.cat (optRE (chrRE 's'))
        (.cat (strRE "://bitbucket".data) (.cat (.pred dotClass)
          (.cat (strRE "org/".data)
            (.cat (.group 2 (.cat (optRE (chrRE ':')) (plusRE hostClass)))
              (.cat (chrRE '/')
                (.group 3 (.cat (optRE (chrRE ':')) (plusRE hostClass)))))))))))
      (.cat (optRE (.group 4 (.cat (optRE (chrRE ':'))
          (.cat (chrRE '/') (.star (.pred dotClass))))))
        (chrRE '\n')))

/-- Pattern `repoPatterns[2]` (legacy code hosting). -/
def googleRE : RE :=
  .cat (strRE "Home-page: ".data)
    (.cat (.group 1 (.cat (strRE "http".data) (.cat (optRE (chrRE 's'))
        (.cat (strRE "://code".data) (.cat (.pred dotClass)
          (.cat (strRE "google".data) (.cat (.pred dotClass)
            (.cat (strRE "com/p/".data)
              (.group 2 (.cat (optRE (chrRE ':')) (plusRE hostClass)))))))))))
      (.cat (optRE (.group 3 (.cat (optRE (chrRE ':'))
          (.cat (chrRE '/') (.star (.pred dotClass))))))
        (chrRE '\n')))

/-- The `repoPatterns` list in order (first match wins). -/
def repoPatterns : List RE := [githubRE, bitbucketRE, googleRE]

/-- Go `homepageRegexp = Home-page: (.+)\n`. -/
def homepageRE : RE :=
  .cat (strRE "Home-page: ".data)
    (.cat (.group 1 (plusRE dotClass)) (chrRE '\n'))

/-- The error values of `FetchSourceRepoURI` (`repo.go`). -/
inductive RepoErr where
  | couldNotParse (homepage : String)
  | noHomepage (metadata : String)
deriving DecidableEq, Repr

/-- The hard-coded `pypiRepos` override table from `repo.go`. -/
def pypiRepos : List (String × String) := [
  ("ansible",               "github.com/ansible/ansible"),
  ("apache-libcloud",       "github.com/apache/libcloud"),
  ("bottle",                "github.com/bottlepy/bottle"),
  ("celery",                "github.com/celery/celery"),
  ("chameleon",             "github.com/malthe/chameleon"),
  ("coverage",              "bitbucket.org/ned/coveragepy"),
  ("distribute",            "bitbucket.org/tarek/distribute"),
  ("django",                "github.com/django/django"),
  ("django-cms",            "github.com/divio/django-cms"),
  ("django-tastypie",       "github.com/toastdriven/django-tastypie"),
  ("djangocms-admin-style", "github.com/divio/djangocms-admin-style"),
  ("djangorestframework",   "github.com/tomchristie/django-rest-framework"),
  ("eve",                   "github.com/nicolaiarocci/eve"),
  ("fabric",                "github.com/fabric/fabric"),
  ("flask",                 "github.com/mitsuhiko/flask"),
  ("gevent",                "github.com/surfly/gevent"),
  ("gunicorn",              "github.com/benoitc/gunicorn"),
  ("httpie",                "github.com/jkbr/httpie"),
  ("httplib2",              "github.com/jcgregorio/httplib2"),
  ("itsdangerous",          "github.com/mitsuhiko/itsdangerous"),
  ("jinja2",                "github.com/mitsuhiko/jinja2"),
  ("kazoo",                 "github.com/python-zk/kazoo"),
  ("kombu",                 "github.com/celery/kombu"),
  ("lamson",                "github.com/zedshaw/lamson"),
  ("libcloud",              "github.com/apache/libcloud"),
  ("lxml",                  "github.com/lxml/lxml"),
  ("mako",                  "github.com/zzzeek/mako"),
  ("markupsafe",            "github.com/mitsuhiko/markupsafe"),
  ("matplotlib",            "github.com/matplotlib/matplotlib"),
  ("mimeparse",             "github.com/crosbymichael/mimeparse"),
  ("mock",                  "github.com/beyang/mock"),
  ("nltk",                  "github.com/nltk/nltk"),
  ("nose",                  "github.com/nose-devs/nose"),
  ("nova",                  "github.com/openstack/nova"),
  ("numpy",                 "github.com/numpy/numpy"),
  ("pandas",                "github.com/pydata/pandas"),
  ("pastedeploy",           "bitbucket.org/ianb/pastedeploy"),
  ("pattern",               "github.com/clips/pattern"),
  ("psycopg2",              "github.com/beyang/psycopg2"),
  ("pyramid",               "github.com/Pylons/pyramid"),
  ("python-dateutil",       "github.com/paxan/python-dateutil"),
  ("python-lust",           "github.com/zedshaw/python-lust"),
  ("pyyaml",                "github.com/yaml/pyyaml"),
  ("repoze.lru",            "github.com/repoze/repoze.lru"),
  ("requests",              "github.com/kennethreitz/requests"),
  ("salt",                  "github.com/saltstack/salt"),
  ("scikit-learn",          "github.com/scikit-learn/scikit-learn"),
  ("scipy",                 "github.com/scipy/scipy"),
  ("sentry",                "github.com/getsentry/sentry"),
  ("setuptools",            "github.com/jaraco/setuptools"),
  ("sockjs-tornado",        "github.com/mrjoes/sockjs-tornado"),
  ("south",                 "bitbucket.org/andrewgodwin/south"),
  ("sqlalchemy",            "github.com/zzzeek/sqlalchemy"),
  ("ssh",                   "github.com/bitprophet/ssh"),
  ("tornado",               "github.com/facebook/tornado"),
  ("translationstring",     "github.com/Pylons/translationstring"),
  ("tulip",                 "github.com/sourcegraph/tulip"),
  ("venusian",              "github.com/Pylons/venusian"),
  ("webob",                 "github.com/Pylons/webob"),
  ("webpy",                 "github.com/webpy/webpy"),
  ("werkzeug",              "github.com/mitsuhiko/werkzeug"),
  ("zope.interface",        "github.com/zopefoundation/zope.interface")]

/-- Lookup in the override table (`pypiRepos[NormalizedPkgName(pkg)]`). -/
def lookupRepo (m : List (String × String)) (k : String) : Option String :=
  match m with
  | [] => none
  | (k', v) :: rest => if k' = k then some v else lookupRepo rest k

/-- The pattern cascade of `FetchSourceRepoURI`: try each of `repoPatterns`
in order; on the first one whose `FindStringSubmatch` is non-nil, return
submatch 1. -/
def findPattern : List RE → String → Option String
  | [], _ => none
  | r :: rest, meta =>
    match reFind r meta.data with
    | some (_, caps) => some ⟨getCap caps 1⟩
    | none => findPattern rest meta

/-- Embedding of `FetchSourceRepoURI` (`repo.go`).  The effectful
collaborators are passed in: `norm` is the external `NormalizedPkgName`
and `fetched` is the outcome of `FetchRawMetadata(pkg, "**/PKG-INFO", ...)`.
The Go result pair `(string, error)` is modelled as
`String × Option RepoErr` (`none` = `nil` error).  Note the first branch:
on a fetch error the Go source is `return "", nil` — it drops the error. -/
def fetchSourceRepoURI (norm : String → String)
    (fetched : Except String String) (pkg : String) : String × Option RepoErr :=
  match fetched with
  | .error _ => ("", none)
  | .ok b =>
    let rawMetadata : String := b
    match findPattern repoPatterns rawMetadata with
    | some uri => (uri, none)
    | none =>
      match lookupRepo pypiRepos (norm pkg) with
      | some hardURI => ("https://" ++ hardURI, none)
      | none =>
        match reFind homepageRE rawMetadata.data with
        | some (_, caps) => ("", some (.couldNotParse ⟨getCap caps 1⟩))
        | none => ("", some (.noHomepage rawMetadata))

/-! ## `util/util.go`: remote archive extraction

The entry-scanning loop of `remoteUntar` is shallowly embedded over the
sequence of results that successive `tr.Next()` calls produce: a header,
the `io.EOF` end-of-archive marker, or another read error.  The Go loop
breaks **only** on `io.EOF`; on any other error `hdr` is `nil`
(`archive/tar` returns a nil header with a non-nil error) and the
following `pattern.MatchString(hdr.Name)` dereferences the nil pointer —
a runtime panic, modelled by an explicit `panicked` outcome. -/

/-- A successfully read tar header together with its entry contents
(the loop reads each matching entry fully via `io.Copy`). -/
structure TarEntry where
  name : String
  content : String
deriving DecidableEq, Repr

/-- One result of `tr.Next()`. -/
inductive TarNext where
  | entry (h : TarEntry)
  | eofMark
  | readError (msg : String)
deriving DecidableEq, Repr

/-- Result of the entry-scanning loop. -/
inductive LoopRes where
  | done (data : String) (matched : Bool)
  | panicked (msg : String)
deriving DecidableEq, Repr

/-- Outcomes of `remoteUntar` / `RemoteDecompress`. -/
inductive UntarOutcome where
  | ok (data : String)
  | errTransport (msg : String)
  | errDecompress (msg : String)
  | errNoMatch
  | errUnrecognized (compressType : String)
  | panicked (msg : String)
deriving DecidableEq, Repr

/-- The `for { hdr, err := tr.Next(); ... }` loop of `remoteUntar`,
accumulating `data` and `matched`.  An exhausted result list is read as
end of archive. -/
def untarLoop (pat : String → Bool) :
    List TarNext → String → Bool → LoopRes
  | [], data, matched => .done data matched
  | .eofMark :: _, data, matched => .done data matched
  | .readError msg :: _, _, _ => .panicked msg
  | .entry h :: rest, data, matched =>
    if pat h.name then untarLoop pat rest (data ++ h.content) true
    else untarLoop pat rest data matched

/-- Embedding of `remoteUntar` (`util.go`).  `resp` is the staged outcome of
`http.Get` (outer) and `gzip.NewReader` (inner); its payload is the tar
entry stream. -/
def remoteUntar (pat : String → Bool)
    (resp : Except String (Except String (List TarNext))) : UntarOutcome :=
  match resp with
  | .error msg => .errTransport msg
  | .ok (.error msg) => .errDecompress msg
  | .ok (.ok stream) =>
    match untarLoop pat stream "" false with
    | .panicked msg => .panicked msg
    | .done data matched => if matched then .ok data else .errNoMatch

/-- Embedding of `RemoteDecompress` (`util.go`): dispatch on the compression
type string (`Zip = "zip"`, `Tar = "tar"`); the extraction branches are
passed in as the outcomes the respective extractor would produce for the
given uri and pattern. -/
def RemoteDecompress (compressType : String)
    (unzipResult untarResult : UntarOutcome) : UntarOutcome :=
  if compressType = "zip" then unzipResult
  else if compressType = "tar" then untarResult
  else .errUnrecognized compressType

/-! ## Specification-side definitions for the parser claims -/

/-- Re-render a parsed requirement from its fields `{Name, ConstraintOp,
Version}` (the canonical whitespace-free form). -/
def renderReq (r : Requirement) : String := r.Name ++ r.Constraint ++ r.Version

/-- Whitespace normalization: erase every white-space character, so two
lines are equivalent under whitespace normalization iff their `stripWs`
images coincide. -/
def stripWs (s : String) : String := ⟨s.data.filter (fun c => !goIsSpace c)⟩

/-! ## Grammar-side definitions for the requirement parser claims -/

/-- The optional bracketed extra component of a requirement line. -/
def extraPart : Option (List Char) → List Char
  | none => []
  | some e => '[' :: (e ++ [']'])

/-- The optional constraint component `ws* op ws* version` of a requirement
line, as (leading whitespace, operator, inner whitespace, version). -/
def constrPart : Option (List Char × List Char × List Char × List Char) →
    List Char
  | none => []
  | some (w1, op, w2, v) => w1 ++ (op ++ (w2 ++ v))

/-- A requirement line assembled from grammar components. -/
def assembleReq (name : List Char) (eo : Option (List Char))
    (co : Option (List Char × List Char × List Char × List Char)) :
    List Char :=
  name ++ (extraPart eo ++ constrPart co)

/-- A valid requirement name: non-empty over `[A-Za-z0-9._-]`. -/
def ValidName (name : List Char) : Prop :=
  name ≠ [] ∧ ∀ c ∈ name, nameClass c = true

/-- A valid optional extra: non-empty over `[A-Za-z0-9._-]` when present. -/
def ValidExtra : Option (List Char) → Prop
  | none => True
  | some e => e ≠ [] ∧ ∀ c ∈ e, nameClass c = true

/-- A valid optional constraint: whitespace runs, an operator among
`==`, `>=`, `>`, and a non-empty version over `[0-9.]`. -/
def ValidConstr : Option (List Char × List Char × List Char × List Char) →
    Prop
  | none => True
  | some (w1, op, w2, v) =>
    (∀ c ∈ w1, reSpace c = true)
    ∧ (op = "==".data ∨ op = ">=".data ∨ op = ">".data)
    ∧ (∀ c ∈ w2, reSpace c = true)
    ∧ v ≠ [] ∧ ∀ c ∈ v, verClass c = true

/-- The requirement-line grammar of §4.2 of the spec:
`name [ '[' extra ']' ] [ ws* op ws* version ]`. -/
def InGrammar (t : List Char) : Prop :=
  ∃ name eo co, ValidName name ∧ ValidExtra eo ∧ ValidConstr co
    ∧ t = assembleReq name eo co

/-- Captures produced by a full grammar match. -/
def expectedCaps (name : List Char) (eo : Option (List Char))
    (co : Option (List Char × List Char × List Char × List Char)) : Caps :=
  (1, name) ::
    ((match eo with | none => [] | some e => [(2, e)]) ++
      (match co with | none => [] | some (_, op, _, v) => [(3, op), (4, v)]))

/-- The operator field a grammar line's parse is expected to carry. -/
def constrOp : Option (List Char × List Char × List Char × List Char) →
    List Char
  | none => []
  | some (_, op, _, _) => op

/-- The version field a grammar line's parse is expected to carry. -/
def constrVer : Option (List Char × List Char × List Char × List Char) →
    List Char
  | none => []
  | some (_, _, _, v) => v

/-- The language of a regex syntax tree (standard Kleene semantics;
ordered alternation and greediness only select among members). -/
inductive Matches : RE → List Char → Prop where
  | eps : Matches .eps []
  | pred {p : Char → Bool} {c : Char} : p c = true → Matches (.pred p) [c]
  | cat {a b : RE} {u v : List Char} :
      Matches a u → Matches b v → Matches (.cat a b) (u ++ v)
  | altL {a b : RE} {u : List Char} : Matches a u → Matches (.alt a b) u
  | altR {a b : RE} {u : List Char} : Matches b u → Matches (.alt a b) u
  | starNil {a : RE} : Matches (.star a) []
  | starCons {a : RE} {u v : List Char} :
      Matches a u → Matches (.star a) v → Matches (.star a) (u ++ v)
  | group {i : Nat} {a : RE} {u : List Char} :
      Matches a u → Matches (.group i a) u

/-! ## Theorems about the snapshot decoder `NewPyPIGraph` -/

theorem lookupSM_nil (k : String) : lookupSM [] k = none := rfl

theorem lookupSM_cons (a : String) (b : List String) (m : SMap) (k : String) :
    lookupSM ((a, b) :: m) k = if a = k then some b else lookupSM m k := rfl

theorem lookupSM_setSM (m : SMap) (k k' : String) (v : List String) :
    lookupSM (setSM m k v) k' = if k = k' then some v else lookupSM m k' := by
  induction m with
  | nil =>
    show lookupSM [(k, v)] k' = _
    rw [lookupSM_cons, lookupSM_nil]
  | cons kv rest ih =>
    obtain ⟨k₀, v₀⟩ := kv
    simp only [setSM]
    by_cases h0 : k₀ = k
    · subst h0
      rw [if_pos rfl, lookupSM_cons, lookupSM_cons]
      by_cases h1 : k₀ = k'
      · rw [if_pos h1, if_pos h1]
      · rw [if_neg h1, if_neg h1, if_neg h1]
    · rw [if_neg h0, lookupSM_cons, ih, lookupSM_cons]
      by_cases h1 : k₀ = k'
      · subst h1
        rw [if_pos rfl, if_pos rfl, if_neg (fun h => h0 h.symm)]
      · rw [if_neg h1, if_neg h1]

theorem lookupSM_appendSM_isSome (m : SMap) (k x k' : String)
    (hs : (lookupSM m k').isSome) :
    (lookupSM (appendSM m k x) k').isSome := by
  rw [appendSM, lookupSM_setSM]
  split
  · simp
  · exact hs

theorem lookupSM_appendSM_self (m : SMap) (k x : String) :
    (lookupSM (appendSM m k x) k).isSome := by
  rw [appendSM, lookupSM_setSM, if_pos rfl]
  simp

theorem lookupSM_ensureSM_isSome (m : SMap) (k k' : String)
    (hs : (lookupSM m k').isSome) :
    (lookupSM (ensureSM m k) k').isSome := by
  unfold ensureSM
  cases h : lookupSM m k with
  | some v => exact hs
  | none =>
    rw [lookupSM_setSM]
    split
    · simp
    · exact hs

theorem lookupSM_ensureSM_self (m : SMap) (k : String) :
    (lookupSM (ensureSM m k) k).isSome := by
  unfold ensureSM
  cases h : lookupSM m k with
  | some v => simp [h]
  | none => rw [lookupSM_setSM, if_pos rfl]; simp

theorem lookupSM_appendSM (m : SMap) (k x k' : String) :
    lookupSM (appendSM m k x) k' =
      if k = k' then some (((lookupSM m k).getD []) ++ [x])
      else lookupSM m k' := by
  simp [appendSM, lookupSM_setSM]

theorem getD_lookupSM_ensureSM (m : SMap) (k k' : String) :
    (lookupSM (ensureSM m k) k').getD [] = (lookupSM m k').getD [] := by
  unfold ensureSM
  cases h : lookupSM m k with
  | some v => rfl
  | none =>
    rw [lookupSM_setSM]
    by_cases hk : k = k'
    · subst hk; simp [h]
    · simp [hk]

/-- One decoded line preserves the count symmetry between `Req` and `ReqBy`. -/
theorem graphLine_count (g : PyPIGraph) (line : String) (pkg dep : String)
    (h : List.count dep (reqOf g pkg) = List.count pkg (reqByOf g dep)) :
    List.count dep (reqOf (graphLine g line) pkg) =
      List.count pkg (reqByOf (graphLine g line) dep) := by
  unfold graphLine
  by_cases hc : line.data.contains ':'
  · rw [if_pos hc]
    by_cases hl : (splitChar ':' line.data).length = 2
    · rw [if_pos hl]
      simp only [reqOf, reqByOf] at h ⊢
      rw [lookupSM_appendSM, lookupSM_appendSM]
      by_cases h1 : edgePkg line = pkg <;> by_cases h2 : edgeDep line = dep
      · rw [if_pos h1, if_pos h2, h1, h2]
        simp only [Option.getD_some, List.count_append, List.count_singleton']
        omega
      · rw [if_pos h1, if_neg h2, h1]
        simp only [Option.getD_some, List.count_append, List.count_singleton',
          if_neg h2]
        omega
      · rw [if_neg h1, if_pos h2, h2]
        simp only [Option.getD_some, List.count_append, List.count_singleton',
          if_neg h1]
        omega
      · rw [if_neg h1, if_neg h2]
        exact h
    · rw [if_neg hl]; exact h
  · rw [if_neg hc]
    by_cases he : line ≠ ""
    · rw [if_pos he]
      simp only [reqOf, reqByOf] at h ⊢
      rw [getD_lookupSM_ensureSM, getD_lookupSM_ensureSM]
      exact h
    · rw [if_neg he]; exact h

/-- C5: for every graph produced by decoding a snapshot with `NewPyPIGraph`,
and for every pair of package names `pkg` and `dep`, the number of
occurrences of `dep` in `Req[pkg]` equals the number of occurrences of
`pkg` in `ReqBy[dep]` (multiplicity-preserving symmetry of the two
adjacency mappings). -/
theorem newPyPIGraph_count_symm (lines : List String) (pkg dep : String) :
    List.count dep (reqOf (newPyPIGraph lines) pkg) =
      List.count pkg (reqByOf (newPyPIGraph lines) dep) := by
  suffices h : ∀ g : PyPIGraph,
      List.count dep (reqOf g pkg) = List.count pkg (reqByOf g dep) →
      List.count dep (reqOf (lines.foldl graphLine g) pkg) =
        List.count pkg (reqByOf (lines.foldl graphLine g) dep) by
    exact h ⟨[], []⟩ (by simp [reqOf, reqByOf, lookupSM])
  induction lines with
  | nil => intro g hg; simpa using hg
  | cons l rest ih =>
    intro g hg
    exact ih (graphLine g l) (graphLine_count g l pkg dep hg)

/-- Key presence in `Req` and `ReqBy` is preserved by every decoded line. -/
theorem graphLine_mono (g : PyPIGraph) (line : String) (k : String) :
    ((lookupSM g.Req k).isSome → (lookupSM (graphLine g line).Req k).isSome)
    ∧ ((lookupSM g.ReqBy k).isSome →
        (lookupSM (graphLine g line).ReqBy k).isSome) := by
  unfold graphLine
  by_cases hc : line.data.contains ':'
  · rw [if_pos hc]
    by_cases hl : (splitChar ':' line.data).length = 2
    · rw [if_pos hl]
      exact ⟨fun hs => lookupSM_appendSM_isSome _ _ _ _ hs,
        fun hs => lookupSM_appendSM_isSome _ _ _ _ hs⟩
    · rw [if_neg hl]; exact ⟨id, id⟩
  · rw [if_neg hc]
    by_cases he : line ≠ ""
    · rw [if_pos he]
      exact ⟨fun hs => lookupSM_ensureSM_isSome _ _ _ hs,
        fun hs => lookupSM_ensureSM_isSome _ _ _ hs⟩
    · rw [if_neg he]; exact ⟨id, id⟩

/-- Key presence is preserved by the whole decoding fold. -/
theorem foldl_graphLine_mono (lines : List String) (g : PyPIGraph) (k : String) :
    ((lookupSM g.Req k).isSome →
      (lookupSM (lines.foldl graphLine g).Req k).isSome)
    ∧ ((lookupSM g.ReqBy k).isSome →
      (lookupSM (lines.foldl graphLine g).ReqBy k).isSome) := by
  induction lines generalizing g with
  | nil => exact ⟨id, id⟩
  | cons l rest ih =>
    refine ⟨fun hs => ?_, fun hs => ?_⟩
    · exact (ih (graphLine g l)).1 ((graphLine_mono g l k).1 hs)
    · exact (ih (graphLine g l)).2 ((graphLine_mono g l k).2 hs)

/-- Counterexample to C1 as stated: in the snapshot `["a:b"]` the package
`b` is mentioned (right side of a one-colon edge line) but has no entry in
the `Req` mapping, and `a` is mentioned (left side) but has no entry in the
`ReqBy` mapping. -/
theorem newPyPIGraph_missing_slots :
    (lookupSM (newPyPIGraph ["a:b"]).Req "a").isSome = true
    ∧ (lookupSM (newPyPIGraph ["a:b"]).ReqBy "b").isSome = true
    ∧ lookupSM (newPyPIGraph ["a:b"]).Req "b" = none
    ∧ lookupSM (newPyPIGraph ["a:b"]).ReqBy "a" = none := by decide

/-- C1 amended: decoding guarantees an entry in `Req` for the left side and
an entry in `ReqBy` for the right side of every one-colon edge line, and
entries in both mappings for every isolated (colon-free, non-empty) line;
a package mentioned only as the left side of an edge line need not appear
in `ReqBy`, and one mentioned only as the right side need not appear in
`Req`. -/
theorem newPyPIGraph_mentioned_slots (lines : List String) (line : String)
    (hmem : line ∈ lines) :
    (line.data.contains ':' → (splitChar ':' line.data).length = 2 →
      (lookupSM (newPyPIGraph lines).Req (edgePkg line)).isSome
      ∧ (lookupSM (newPyPIGraph lines).ReqBy (edgeDep line)).isSome)
    ∧ (¬ line.data.contains ':' = true → line ≠ "" →
      (lookupSM (newPyPIGraph lines).Req line).isSome
      ∧ (lookupSM (newPyPIGraph lines).ReqBy line).isSome) := by
  suffices h : ∀ g : PyPIGraph,
      (line.data.contains ':' → (splitChar ':' line.data).length = 2 →
        (lookupSM (lines.foldl graphLine g).Req (edgePkg line)).isSome
        ∧ (lookupSM (lines.foldl graphLine g).ReqBy (edgeDep line)).isSome)
      ∧ (¬ line.data.contains ':' = true → line ≠ "" →
        (lookupSM (lines.foldl graphLine g).Req line).isSome
        ∧ (lookupSM (lines.foldl graphLine g).ReqBy line).isSome) from
    h ⟨[], []⟩
  induction lines with
  | nil => exact absurd hmem (List.not_mem_nil line)
  | cons l rest ih =>
    intro g
    rcases List.mem_cons.mp hmem with heq | hrest
    · subst heq
      refine ⟨fun hc hl => ?_, fun hc he => ?_⟩
      · have hkeys : (lookupSM (graphLine g line).Req (edgePkg line)).isSome
            ∧ (lookupSM (graphLine g line).ReqBy (edgeDep line)).isSome := by
          unfold graphLine
          rw [if_pos hc, if_pos hl]
          exact ⟨lookupSM_appendSM_self _ _ _, lookupSM_appendSM_self _ _ _⟩
        exact ⟨(foldl_graphLine_mono rest (graphLine g line) _).1 hkeys.1,
          (foldl_graphLine_mono rest (graphLine g line) _).2 hkeys.2⟩
      · have hkeys : (lookupSM (graphLine g line).Req line).isSome
            ∧ (lookupSM (graphLine g line).ReqBy line).isSome := by
          unfold graphLine
          rw [if_neg hc, if_pos he]
          exact ⟨lookupSM_ensureSM_self _ _, lookupSM_ensureSM_self _ _⟩
        exact ⟨(foldl_graphLine_mono rest (graphLine g line) _).1 hkeys.1,
          (foldl_graphLine_mono rest (graphLine g line) _).2 hkeys.2⟩
    · exact ih hrest (graphLine g l)

/-- Witness for C1 (amended) on the concrete snapshot `["a:b", "c"]`. -/
theorem newPyPIGraph_mentioned_slots_witness :
    ("a:b" : String) ∈ (["a:b", "c"] : List String)
    ∧ ((lookupSM (newPyPIGraph ["a:b", "c"]).Req "a").isSome
      ∧ (lookupSM (newPyPIGraph ["a:b", "c"]).ReqBy "b").isSome)
    ∧ ((lookupSM (newPyPIGraph ["a:b", "c"]).Req "c").isSome
      ∧ (lookupSM (newPyPIGraph ["a:b", "c"]).ReqBy "c").isSome) := by
  refine ⟨by simp, ?_, ?_⟩
  · have h := (newPyPIGraph_mentioned_slots ["a:b", "c"] "a:b" (by simp)).1
      (by decide) (by decide)
    exact h
  · have h := (newPyPIGraph_mentioned_slots ["a:b", "c"] "c" (by simp)).2
      (by decide) (by decide)
    exact h

/-! ## Theorems about `FetchSourceRepoURI` and `parseRequirement` examples -/

/-- C8: the github, bitbucket and legacy-code-hosting regexes are applied in
that order with the first match winning and capture only
`scheme://host/owner/repo`, discarding trailing path segments; on metadata
`"Home-page: https://github.com/org/proj/issues\n"` the result is
`"https://github.com/org/proj"` for every package and normalizer (the
cascade precedes the override table), and on metadata whose only homepage
line is `"Home-page: https://example.com/x"` with no override-table entry
for the package the result is the homepage-present error variant carrying
`"https://example.com/x"` verbatim. -/
theorem fetchSourceRepoURI_cascade (norm : String → String) (pkg : String)
    (h : lookupRepo pypiRepos (norm pkg) = none) :
    (∀ (norm' : String → String) (pkg' : String),
      fetchSourceRepoURI norm'
          (.ok "Home-page: https://github.com/org/proj/issues\n") pkg'
        = ("https://github.com/org/proj", none))
    ∧ fetchSourceRepoURI norm (.ok "Home-page: https://example.com/x\n") pkg
        = ("", some (.couldNotParse "https://example.com/x")) := by
  refine ⟨fun norm' pkg' => rfl, ?_⟩
  change (match lookupRepo pypiRepos (norm pkg) with
    | some hardURI => ("https://" ++ hardURI, none)
    | none => ("", some (RepoErr.couldNotParse "https://example.com/x"))) = _
  rw [h]

/-- Witness for C8 with the identity normalizer and a package absent from
the override table. -/
theorem fetchSourceRepoURI_cascade_witness :
    lookupRepo pypiRepos (id "examplepkg") = none
    ∧ fetchSourceRepoURI id
        (.ok "Home-page: https://github.com/org/proj/issues\n") "examplepkg"
        = ("https://github.com/org/proj", none)
    ∧ fetchSourceRepoURI id (.ok "Home-page: https://example.com/x\n") "examplepkg"
        = ("", some (.couldNotParse "https://example.com/x")) := by
  refine ⟨rfl, ?_, ?_⟩
  · exact (fetchSourceRepoURI_cascade id "examplepkg" rfl).1 id "examplepkg"
  · exact (fetchSourceRepoURI_cascade id "examplepkg" rfl).2

/-- Counterexample to C3 as stated: the Go `Requirement` struct has no
`Extra` field and `parseRequirement` drops submatch 2, so on the
grammar-conforming line `"foo[bar]==1.0"` the parse result retains nothing
of `bar` and re-rendering `{Name, ConstraintOp, Version}` does not
reproduce the line even under whitespace normalization. -/
theorem parseRequirement_drops_extra :
    parseRequirement "foo[bar]==1.0" = .ok ⟨"foo", "==", "1.0"⟩
    ∧ stripWs (renderReq ⟨"foo", "==", "1.0"⟩) ≠ stripWs "foo[bar]==1.0" :=
  ⟨rfl, by decide⟩

/-! ## Theorems about `lastTar` (`query.go`) -/

/-- The downward scan over the first `n` files returns the last match among
them. -/
theorem lastTarAux_eq_find (files : List String) (n : Nat)
    (hn : n ≤ files.length) :
    lastTarAux files n = (((files.take n).reverse.find? tarMatch).getD "") := by
  induction n with
  | zero => rfl
  | succ n ih =>
    have hlt : n < files.length := Nat.lt_of_succ_le hn
    have hget : files[n]? = some (files.get ⟨n, hlt⟩) := List.getElem?_eq_getElem hlt
    have hgetD : files.getD n "" = files.get ⟨n, hlt⟩ := by
      rw [List.getD_eq_getElem?_getD, hget]; rfl
    rw [List.take_succ, hget]
    show lastTarAux files (n + 1) = _
    unfold lastTarAux
    rw [List.reverse_append, hgetD]
    simp only [Option.toList_some, List.reverse_singleton, List.singleton_append,
      List.find?_cons]
    cases hm : tarMatch (files.get ⟨n, hlt⟩) with
    | true => simp [hm]
    | false => simpa [hm] using ih (Nat.le_of_lt hlt)

/-- Counterexample to C7 as stated: `tarRegexp` is unanchored, so a path
that merely *contains* `.tar.gz` is selected.  On `["pkg-1.0.tar.gz.asc"]`
the claim demands the absent value `""` (no element *ends* in `.tar.gz`),
but `lastTar` returns the element. -/
theorem lastTar_not_suffix_based :
    lastTar ["pkg-1.0.tar.gz.asc"] = "pkg-1.0.tar.gz.asc"
    ∧ List.isSuffixOf ".tar.gz".data "pkg-1.0.tar.gz.asc".data = false :=
  ⟨rfl, rfl⟩

/-- C7 amended: `lastTar` returns the last element of the list that
*matches* `tarRegexp` — i.e. contains a path-character run followed by
`.tar.gz` anywhere, not necessarily as a suffix — and returns the absent
value `""` when no element matches; on the spec's examples
`["pkg-1.0.zip", "pkg-1.0.tar.gz", "pkg-1.1.tar.gz"]` selects
`"pkg-1.1.tar.gz"` and `["pkg-1.0.zip"]` selects none. -/
theorem lastTar_spec (files : List String) :
    lastTar files = ((files.reverse.find? tarMatch).getD "")
    ∧ lastTar ["pkg-1.0.zip", "pkg-1.0.tar.gz", "pkg-1.1.tar.gz"]
        = "pkg-1.1.tar.gz"
    ∧ lastTar ["pkg-1.0.zip"] = "" := by
  refine ⟨?_, rfl, rfl⟩
  have h := lastTarAux_eq_find files files.length (Nat.le_refl _)
  rwa [List.take_length] at h

/-! ## Theorems about `util/util.go` -/

/-- What the scanning loop computes over a well-formed archive (all headers
read successfully, terminated by the end-of-archive marker): the data is the
accumulated concatenation of every matching entry's contents, and `matched`
records whether any entry matched. -/
theorem untarLoop_spec (pat : String → Bool) (entries : List TarEntry)
    (data : String) (matched : Bool) :
    untarLoop pat (entries.map .entry ++ [.eofMark]) data matched =
      .done (data ++ ((entries.filter fun e => pat e.name).map
                TarEntry.content).foldr (· ++ ·) "")
        (matched || entries.any fun e => pat e.name) := by
  induction entries generalizing data matched with
  | nil => simp [untarLoop, String.append_empty]
  | cons e rest ih =>
    by_cases hp : pat e.name
    · simp [untarLoop, hp, ih, String.append_assoc]
    · simp [untarLoop, hp, ih]

/-- C6: for every tar.gz archive stream, extraction scans every entry to the
end of the archive rather than stopping at the first match, returns the
concatenation, in archive order, of the full contents of every entry whose
path matches the pattern, and returns a "no match" error — distinct from any
transport or decompression error — exactly when no entry matched. -/
theorem remoteUntar_scans_to_end (entries : List TarEntry) (pat : String → Bool) :
    (remoteUntar pat (.ok (.ok (entries.map .entry ++ [.eofMark]))) =
      if entries.any fun e => pat e.name then
        .ok (((entries.filter fun e => pat e.name).map TarEntry.content).foldr (· ++ ·) "")
      else .errNoMatch)
    ∧ (∀ m, UntarOutcome.errNoMatch ≠ UntarOutcome.errTransport m)
    ∧ (∀ m, UntarOutcome.errNoMatch ≠ UntarOutcome.errDecompress m) := by
  refine ⟨?_, fun m => by simp, fun m => by simp⟩
  by_cases h : entries.any fun e => pat e.name
  · simp [remoteUntar, untarLoop_spec, h]
  · simp [remoteUntar, untarLoop_spec, h]

/-- C9: evaluation of the embedded code at a failing input.  On a stream
whose first header read fails with a non-`io.EOF` error, the loop does not
break; the Go source then evaluates `hdr.Name` on the `nil` header returned
alongside the error, a nil-pointer dereference — the function neither
returns extracted bytes nor an error value. -/
theorem remoteUntar_panics_on_read_error :
    remoteUntar (fun _ => true)
        (.ok (.ok [.readError "archive/tar: invalid tar header"]))
      = .panicked "archive/tar: invalid tar header" := rfl

/-- C10: for every compression kind other than `"zip"` and `"tar"`,
`RemoteDecompress` returns the unrecognized-compression-type error and
performs no extraction: the result is this error regardless of what either
extractor would have produced for the given uri and pattern. -/
theorem RemoteDecompress_unrecognized (compressType : String)
    (unzipResult untarResult : UntarOutcome)
    (hz : compressType ≠ "zip") (ht : compressType ≠ "tar") :
    RemoteDecompress compressType unzipResult untarResult =
      .errUnrecognized compressType := by
  simp [RemoteDecompress, hz, ht]

/-- Witness for C10 at the concrete kind `"gzip"`. -/
theorem RemoteDecompress_unrecognized_witness :
    ("gzip" : String) ≠ "zip" ∧ ("gzip" : String) ≠ "tar" ∧
    RemoteDecompress "gzip" (.ok "a") (.ok "b") = .errUnrecognized "gzip" :=
  ⟨by decide, by decide,
    RemoteDecompress_unrecognized "gzip" (.ok "a") (.ok "b")
      (by decide) (by decide)⟩

/-! ## Theorems about `cheerio/repo.go` -/

/-- C2: evaluation of the embedded code at a failing input.  When fetching
the descriptor metadata fails, `FetchSourceRepoURI` returns `("", nil)` —
an empty-string success that drops the fetch error instead of propagating
it. -/
theorem fetchSourceRepoURI_fetch_error_swallowed :
    fetchSourceRepoURI id (.error "connection refused") "foo" = ("", none) :=
  rfl

/-! ## Character-class facts -/

theorem beq_char_false {c d : Char} (h : c.toNat ≠ d.toNat) : (c == d) = false :=
  beq_eq_false_iff_ne.mpr (fun he => h (he ▸ rfl))

theorem nameClass_bounds {c : Char} (h : nameClass c = true) :
    45 ≤ c.toNat ∧ c.toNat ≤ 122 := by
  simp only [nameClass, Bool.or_eq_true, Bool.and_eq_true, decide_eq_true_eq,
    beq_iff_eq] at h
  rcases h with ((((⟨h1, h2⟩ | ⟨h1, h2⟩) | ⟨h1, h2⟩) | h) | h) | h
  · have h1' : 65 ≤ c.toNat := h1
    have h2' : c.toNat ≤ 90 := h2
    omega
  · have h1' : 97 ≤ c.toNat := h1
    have h2' : c.toNat ≤ 122 := h2
    omega
  · have h1' : 48 ≤ c.toNat := h1
    have h2' : c.toNat ≤ 57 := h2
    omega
  · subst h; exact ⟨by decide, by decide⟩
  · subst h; exact ⟨by decide, by decide⟩
  · subst h; exact ⟨by decide, by decide⟩

theorem verClass_bounds {c : Char} (h : verClass c = true) :
    46 ≤ c.toNat ∧ c.toNat ≤ 57 := by
  simp only [verClass, Bool.or_eq_true, Bool.and_eq_true, decide_eq_true_eq,
    beq_iff_eq] at h
  rcases h with ⟨h1, h2⟩ | h
  · have h1' : 48 ≤ c.toNat := h1
    have h2' : c.toNat ≤ 57 := h2
    omega
  · subst h; exact ⟨by decide, by decide⟩

theorem reSpace_toNat {c : Char} (h : reSpace c = true) : c.toNat ≤ 32 := by
  simp only [reSpace, List.contains_cons, List.contains_nil, Bool.or_eq_true,
    beq_iff_eq, Bool.false_eq_true, or_false] at h
  rcases h with h | h | h | h | h <;> omega

theorem reSpace_false_of_ge {c : Char} (h : 33 ≤ c.toNat) :
    reSpace c = false := by
  cases hr : reSpace c with
  | false => rfl
  | true => exact absurd (reSpace_toNat hr) (by omega)

theorem goIsSpace_toNat {c : Char} (h : goIsSpace c = true) :
    c.toNat ≤ 32 ∨ 133 ≤ c.toNat := by
  simp only [goIsSpace, Bool.or_eq_true, List.contains_cons, List.contains_nil,
    beq_iff_eq, Bool.and_eq_true, decide_eq_true_eq, Bool.false_eq_true,
    or_false] at h
  rcases h with (h | h | h | h | h | h | h | h | h | h | h | h | h | h) |
    ⟨h1, h2⟩ <;> omega

theorem goIsSpace_false_of_bounds {c : Char} (h1 : 33 ≤ c.toNat)
    (h2 : c.toNat ≤ 132) : goIsSpace c = false := by
  cases hr : goIsSpace c with
  | false => rfl
  | true => rcases goIsSpace_toNat hr with h | h <;> omega

theorem goIsSpace_of_reSpace {c : Char} (h : reSpace c = true) :
    goIsSpace c = true := by
  simp only [reSpace, List.contains_cons, List.contains_nil, Bool.or_eq_true,
    beq_iff_eq, Bool.false_eq_true, or_false] at h
  simp only [goIsSpace, Bool.or_eq_true, List.contains_cons, List.contains_nil,
    beq_iff_eq, Bool.and_eq_true, decide_eq_true_eq]
  rcases h with h | h | h | h | h <;> simp [h]

theorem nameClass_not_space {c : Char} (h : nameClass c = true) :
    goIsSpace c = false ∧ reSpace c = false := by
  obtain ⟨h1, h2⟩ := nameClass_bounds h
  exact ⟨goIsSpace_false_of_bounds (by omega) (by omega),
    reSpace_false_of_ge (by omega)⟩

theorem verClass_not_space {c : Char} (h : verClass c = true) :
    goIsSpace c = false ∧ reSpace c = false := by
  obtain ⟨h1, h2⟩ := verClass_bounds h
  exact ⟨goIsSpace_false_of_bounds (by omega) (by omega),
    reSpace_false_of_ge (by omega)⟩

theorem nameClass_false_of_reSpace {c : Char} (h : reSpace c = true) :
    nameClass c = false := by
  cases hn : nameClass c with
  | false => rfl
  | true => exact absurd (reSpace_toNat h) (by
      have := (nameClass_bounds hn).1; omega)

/-! ## Engine evaluation lemmas -/

theorem take_len_sub (xs ys : List Char) :
    (xs ++ ys).take ((xs ++ ys).length - ys.length) = xs := by
  have h : (xs ++ ys).length - ys.length = xs.length := by
    simp [List.length_append]
  rw [h, List.take_left]

theorem mgo_cat (rec) (a b : RE) (s : List Char) (caps : Caps) (k) :
    mgo rec (.cat a b) s caps k =
      mgo rec a s caps (fun s1 c1 => mgo rec b s1 c1 k) := rfl

theorem mgo_group (rec) (i : Nat) (a : RE) (s : List Char) (caps : Caps) (k) :
    mgo rec (.group i a) s caps k =
      mgo rec a s caps
        (fun s1 c1 => k s1 (setCap c1 i (s.take (s.length - s1.length)))) := rfl

theorem mgo_pred_cons (rec) (p : Char → Bool) (c : Char) (rest : List Char)
    (caps : Caps) (k) :
    mgo rec (.pred p) (c :: rest) caps k =
      if p c then k rest caps else none := rfl

theorem mgo_star_eq (rec) (a : RE) (s : List Char) (caps : Caps) (k) :
    mgo rec (.star a) s caps k =
      match mgo rec a s caps (fun s1 c1 =>
          if s1.length < s.length then rec (.star a) s1 c1 k else none) with
      | some r => some r
      | none => k s caps := rfl

theorem mgo_alt_eq (rec) (a b : RE) (s : List Char) (caps : Caps) (k) :
    mgo rec (.alt a b) s caps k =
      match mgo rec a s caps k with
      | some r => some r
      | none => mgo rec b s caps k := rfl

theorem mgo_alt_hit {rec : RE → List Char → Caps →
      (List Char → Caps → Option MatchRes) → Option MatchRes}
    {a : RE} (b : RE) {s caps k r}
    (hm : mgo rec a s caps k = some r) :
    mgo rec (.alt a b) s caps k = some r := by
  rw [mgo_alt_eq, hm]

theorem mgo_alt_miss {rec : RE → List Char → Caps →
      (List Char → Caps → Option MatchRes) → Option MatchRes}
    {a : RE} (b : RE) {s caps k}
    (hm : mgo rec a s caps k = none) :
    mgo rec (.alt a b) s caps k = mgo rec b s caps k := by
  rw [mgo_alt_eq, hm]

theorem mgo_opt_hit {rec a s caps k r}
    (hm : mgo rec a s caps k = some r) :
    mgo rec (optRE a) s caps k = some r :=
  mgo_alt_hit .eps hm

theorem mgo_opt_miss {rec a s caps k}
    (hm : mgo rec a s caps k = none) :
    mgo rec (optRE a) s caps k = k s caps := by
  show mgo rec (.alt a .eps) s caps k = k s caps
  rw [mgo_alt_miss .eps hm]
  rfl

theorem mgo_chr (rec) (c : Char) (rest : List Char) (caps : Caps) (k) :
    mgo rec (chrRE c) (c :: rest) caps k = k rest caps := by
  show mgo rec (.pred (fun d => d == c)) (c :: rest) caps k = k rest caps
  unfold mgo
  simp

theorem mgo_pred_none {rec p s caps k}
    (h : ∀ c, s.head? = some c → p c = false) :
    mgo rec (.pred p) s caps k = none := by
  cases s with
  | nil => rfl
  | cons c t =>
    have hc := h c rfl
    unfold mgo
    simp [hc]

theorem mgo_cat_pred_none {rec p b s caps k}
    (h : ∀ c, s.head? = some c → p c = false) :
    mgo rec (.cat (.pred p) b) s caps k = none := by
  rw [mgo_cat, mgo_pred_none h]

theorem mgo_strRE_append (l : List Char) : ∀ (rec) (rest : List Char) (caps k),
    mgo rec (strRE l) (l ++ rest) caps k = k rest caps := by
  induction l with
  | nil => intro rec rest caps k; rfl
  | cons c l' ih =>
    intro rec rest caps k
    show mgo rec (.cat (chrRE c) (strRE l')) (c :: (l' ++ rest)) caps k = _
    rw [mgo_cat, mgo_chr]
    exact ih rec rest caps k

theorem mgo_star_pred (p : Char → Bool) :
    ∀ (xs : List Char) (f : Nat) (rest : List Char) (caps : Caps)
      (k : List Char → Caps → Option MatchRes) (r : MatchRes),
      (∀ c ∈ xs, p c = true) →
      (∀ c, rest.head? = some c → p c = false) →
      k rest caps = some r →
      xs.length ≤ f →
      mgo (mmatch f) (.star (.pred p)) (xs ++ rest) caps k = some r := by
  intro xs
  induction xs with
  | nil =>
    intro f rest caps k r hxs hrest hk hf
    show mgo (mmatch f) (.star (.pred p)) rest caps k = some r
    rw [mgo_star_eq, mgo_pred_none hrest]
    exact hk
  | cons x xs' ih =>
    intro f rest caps k r hxs hrest hk hf
    cases f with
    | zero => simp at hf
    | succ f' =>
      have hx : p x = true := hxs x (by simp)
      have hrec : mmatch (f' + 1) (.star (.pred p)) (xs' ++ rest) caps k
          = some r := by
        show mgo (mmatch f') (.star (.pred p)) (xs' ++ rest) caps k = some r
        exact ih f' rest caps k r (fun c hc => hxs c (by simp [hc]))
          hrest hk (by simp at hf; omega)
      show mgo (mmatch (f' + 1)) (.star (.pred p))
        (x :: (xs' ++ rest)) caps k = some r
      rw [mgo_star_eq, mgo_pred_cons, hx, if_pos rfl]
      rw [if_pos (by simp [List.length_cons]), hrec]

theorem mgo_plus_pred {p : Char → Bool} {xs rest : List Char} {caps : Caps}
    {k} {r : MatchRes} {f : Nat}
    (hne : xs ≠ []) (hxs : ∀ c ∈ xs, p c = true)
    (hrest : ∀ c, rest.head? = some c → p c = false)
    (hk : k rest caps = some r) (hf : xs.length ≤ f) :
    mgo (mmatch f) (plusRE p) (xs ++ rest) caps k = some r := by
  cases xs with
  | nil => exact absurd rfl hne
  | cons x xs' =>
    show mgo (mmatch f) (.cat (.pred p) (.star (.pred p)))
      (x :: (xs' ++ rest)) caps k = some r
    rw [mgo_cat]
    have hx : p x = true := hxs x (by simp)
    show (if p x then
        mgo (mmatch f) (.star (.pred p)) (xs' ++ rest) caps k else none)
      = some r
    rw [hx, if_pos rfl]
    exact mgo_star_pred p xs' f rest caps k r
      (fun c hc => hxs c (by simp [hc])) hrest hk (by simp at hf; omega)

theorem mgo_plus_pred_all {p : Char → Bool} {xs : List Char} {caps : Caps}
    {k} {r : MatchRes} {f : Nat}
    (hne : xs ≠ []) (hxs : ∀ c ∈ xs, p c = true)
    (hk : k [] caps = some r) (hf : xs.length ≤ f) :
    mgo (mmatch f) (plusRE p) xs caps k = some r := by
  have h := @mgo_plus_pred p xs [] caps k r f hne hxs (by simp) hk hf
  rwa [List.append_nil] at h

/-! ## Evaluation of the requirement regex on grammar inputs -/

/-- The `\s*([0-9.]+)` tail consumes `w2 ++ v` and captures `v` as
submatch 4. -/
theorem mgo_ws_ver {f : Nat} {w2 v : List Char} {caps : Caps} {k}
    {r : MatchRes}
    (hw2 : ∀ c ∈ w2, reSpace c = true)
    (hv1 : v ≠ []) (hv2 : ∀ c ∈ v, verClass c = true)
    (hk : k [] (setCap caps 4 v) = some r)
    (hf : w2.length + v.length ≤ f) :
    mgo (mmatch f) (.cat (.star (.pred reSpace)) (.group 4 (plusRE verClass)))
      (w2 ++ v) caps k = some r := by
  rw [mgo_cat]
  apply mgo_star_pred reSpace w2 f v caps _ r hw2 ?_ ?_ (by omega)
  · intro c hc
    cases v with
    | nil => simp at hc
    | cons a t =>
      simp only [List.head?_cons, Option.some_inj] at hc
      subst hc
      exact (verClass_not_space (hv2 a (by simp))).2
  · rw [mgo_group]
    apply mgo_plus_pred_all hv1 hv2 ?_ (by omega)
    have htake : v.take (v.length - ([] : List Char).length) = v := by
      simp
    rw [htake]
    exact hk

/-- The operator alternation consumes exactly `op` when succeeded by
whitespace and version characters. -/
theorem mgo_opRE_append {op w2 v : List Char} {rec} {caps : Caps} {k}
    {r : MatchRes}
    (hop : op = "==".data ∨ op = ">=".data ∨ op = ">".data)
    (hw2 : ∀ c ∈ w2, reSpace c = true)
    (hv2 : ∀ c ∈ v, verClass c = true)
    (hk : k (w2 ++ v) caps = some r) :
    mgo rec opRE (op ++ (w2 ++ v)) caps k = some r := by
  have hbd : ∀ c, (w2 ++ v).head? = some c → (c == '=') = false := by
    intro c hc
    cases w2 with
    | nil =>
      cases v with
      | nil => simp at hc
      | cons a t =>
        simp only [List.nil_append, List.head?_cons, Option.some_inj] at hc
        subst hc
        have := verClass_bounds (hv2 a (by simp))
        exact beq_char_false (by
          have h61 : ('=' : Char).toNat = 61 := rfl
          omega)
    | cons a t =>
      simp only [List.cons_append, List.head?_cons, Option.some_inj] at hc
      subst hc
      have := reSpace_toNat (hw2 a (by simp))
      exact beq_char_false (by
        have h61 : ('=' : Char).toNat = 61 := rfl
        omega)
  rcases hop with hop | hop | hop <;> subst hop
  · apply mgo_alt_hit
    rw [mgo_strRE_append]
    exact hk
  · have m1 : mgo rec (strRE "==".data) (">=".data ++ (w2 ++ v)) caps k
        = none := rfl
    unfold opRE
    rw [mgo_alt_miss _ m1]
    apply mgo_alt_hit
    rw [mgo_strRE_append]
    exact hk
  · have m1 : mgo rec (strRE "==".data) (">".data ++ (w2 ++ v)) caps k
        = none := rfl
    have m2 : mgo rec (strRE ">=".data) (">".data ++ (w2 ++ v)) caps k
        = none := by
      show mgo rec (.cat (chrRE '>') (.cat (chrRE '=') .eps))
        ('>' :: (w2 ++ v)) caps k = none
      rw [mgo_cat, mgo_chr]
      exact mgo_cat_pred_none hbd
    unfold opRE
    rw [mgo_alt_miss _ m1, mgo_alt_miss _ m2, mgo_strRE_append]
    exact hk

/-- The `\s*(?:(==|>=|>)\s*([0-9.]+))?` tail of the requirement regex, on a
present, valid constraint: consumes everything and captures `op` and `v`. -/
theorem mgo_ws_constr {f : Nat} {w1 op w2 v : List Char} {caps : Caps} {k}
    {r : MatchRes}
    (hw1 : ∀ c ∈ w1, reSpace c = true)
    (hop : op = "==".data ∨ op = ">=".data ∨ op = ">".data)
    (hw2 : ∀ c ∈ w2, reSpace c = true)
    (hv1 : v ≠ []) (hv2 : ∀ c ∈ v, verClass c = true)
    (hk : k [] (setCap (setCap caps 3 op) 4 v) = some r)
    (hf : w1.length + (op.length + (w2.length + v.length)) ≤ f) :
    mgo (mmatch f) (.cat (.star (.pred reSpace)) (optRE constrRE))
      (w1 ++ (op ++ (w2 ++ v))) caps k = some r := by
  rw [mgo_cat]
  apply mgo_star_pred reSpace w1 f (op ++ (w2 ++ v)) caps _ r hw1 ?_ ?_
    (by omega)
  · intro c hc
    rcases hop with hop | hop | hop <;> subst hop <;>
      (simp only [List.cons_append, List.head?_cons, Option.some_inj] at hc;
       subst hc; decide)
  · apply mgo_opt_hit
    show mgo (mmatch f) (.cat (.group 3 opRE)
      (.cat (.star (.pred reSpace)) (.group 4 (plusRE verClass))))
      (op ++ (w2 ++ v)) caps k = some r
    rw [mgo_cat, mgo_group]
    apply mgo_opRE_append hop hw2 hv2
    rw [take_len_sub]
    apply mgo_ws_ver hw2 hv1 hv2 hk
    rcases hop with hop | hop | hop <;> subst hop <;> (simp at hf ⊢; omega)

/-- Miss-then-continue form of `mgo_opt_miss`. -/
theorem mgo_opt_miss_apply {rec a s caps k r}
    (hm : mgo rec a s caps k = none) (hk : k s caps = some r) :
    mgo rec (optRE a) s caps k = some r := by
  rw [mgo_opt_miss hm]
  exact hk

/-- Evaluation of the `\s*(?:(==|>=|>)\s*([0-9.]+))?` tail of the
requirement regex on an (optional) valid constraint part. -/
theorem mgo_tail_eval (f : Nat)
    (co : Option (List Char × List Char × List Char × List Char))
    (hc : ValidConstr co) (capsX : Caps)
    (hf : (constrPart co).length ≤ f) :
    mgo (mmatch f) (.cat (.star (.pred reSpace)) (optRE constrRE))
      (constrPart co) capsX (fun rest caps => some (rest, caps))
    = some ([], match co with
        | none => capsX
        | some (_, op, _, v) => setCap (setCap capsX 3 op) 4 v) := by
  cases co with
  | none =>
    show mgo (mmatch f) _ (([] : List Char) ++ []) _ _ = _
    rw [mgo_cat]
    apply mgo_star_pred reSpace [] f [] capsX _ _ (by simp) (by simp) ?_
      (by simp)
    exact mgo_opt_miss_apply rfl rfl
  | some q =>
    obtain ⟨w1, op, w2, v⟩ := q
    obtain ⟨hw1, hop, hw2, hv1, hv2⟩ := hc
    simp only [constrPart] at hf ⊢
    exact mgo_ws_constr hw1 hop hw2 hv1 hv2 rfl (by
      simp only [List.length_append] at hf; omega)

/-- Master evaluation: on every assembled valid grammar line the requirement
regex consumes the whole input from position 0 and produces exactly the
grammar components as captures. -/
theorem mgo_requirementRE (name : List Char) (eo : Option (List Char))
    (co : Option (List Char × List Char × List Char × List Char))
    (hn : ValidName name) (he : ValidExtra eo) (hc : ValidConstr co)
    (f : Nat) (hf : (assembleReq name eo co).length ≤ f) :
    mgo (mmatch f) requirementRE (assembleReq name eo co) []
      (fun rest caps => some (rest, caps))
      = some ([], expectedCaps name eo co) := by
  obtain ⟨hn1, hn2⟩ := hn
  have hfl := hf
  simp only [assembleReq, List.length_append] at hfl
  unfold requirementRE assembleReq
  rw [mgo_cat, mgo_group]
  apply mgo_plus_pred hn1 hn2 ?_ ?_ (by omega)
  · -- boundary after the name: '[', whitespace, an operator head, or nothing
    intro c hcq
    cases eo with
    | some e =>
      simp only [extraPart, List.cons_append, List.head?_cons,
        Option.some_inj] at hcq
      subst hcq; decide
    | none =>
      simp only [extraPart, List.nil_append] at hcq
      cases co with
      | none => simp [constrPart] at hcq
      | some q =>
        obtain ⟨w1, op, w2, v⟩ := q
        obtain ⟨hw1, hop, hw2, hv1, hv2⟩ := hc
        simp only [constrPart] at hcq
        cases w1 with
        | cons a t =>
          simp only [List.cons_append, List.head?_cons, Option.some_inj] at hcq
          subst hcq
          exact nameClass_false_of_reSpace (hw1 a (by simp))
        | nil =>
          simp only [List.nil_append] at hcq
          rcases hop with hop | hop | hop <;> subst hop <;>
            (simp only [List.cons_append, List.head?_cons,
              Option.some_inj] at hcq; subst hcq; decide)
  · -- the continuation after the name: capture group 1, then the rest
    rw [take_len_sub, mgo_cat]
    cases eo with
    | none =>
      simp only [extraPart, List.nil_append]
      apply mgo_opt_miss_apply ?_ ?_
      · -- extraRE cannot start: the head is not '['
        apply mgo_cat_pred_none
        intro c hcq
        cases co with
        | none => simp [constrPart] at hcq
        | some q =>
          obtain ⟨w1, op, w2, v⟩ := q
          obtain ⟨hw1, hop, hw2, hv1, hv2⟩ := hc
          simp only [constrPart] at hcq
          cases w1 with
          | cons a t =>
            simp only [List.cons_append, List.head?_cons,
              Option.some_inj] at hcq
            subst hcq
            have := reSpace_toNat (hw1 a (by simp))
            exact beq_char_false (by
              have h91 : ('[' : Char).toNat = 91 := rfl
              omega)
          | nil =>
            simp only [List.nil_append] at hcq
            rcases hop with hop | hop | hop <;> subst hop <;>
              (simp only [List.cons_append, List.head?_cons,
                Option.some_inj] at hcq; subst hcq; decide)
      · rw [mgo_tail_eval f co hc (setCap [] 1 name) (by
          simp only [extraPart, List.length_nil] at hfl; omega)]
        cases co with
        | none => rfl
        | some q => obtain ⟨w1, op, w2, v⟩ := q; rfl
    | some e =>
      obtain ⟨he1, he2⟩ := he
      simp only [extraPart, List.cons_append]
      apply mgo_opt_hit
      show mgo (mmatch f)
        (.cat (chrRE '[') (.cat (.group 2 (plusRE nameClass)) (chrRE ']')))
        ('[' :: ((e ++ [']']) ++ constrPart co)) (setCap [] 1 name) _ = _
      rw [mgo_cat, mgo_chr, mgo_cat, mgo_group]
      have hassoc : (e ++ [']']) ++ constrPart co
          = e ++ (']' :: constrPart co) := by
        rw [List.append_assoc]; rfl
      rw [hassoc]
      have hel : e.length ≤ f := by
        simp only [extraPart, List.length_cons, List.length_append,
          List.length_singleton] at hfl
        omega
      apply mgo_plus_pred he1 he2 ?_ ?_ (by omega)
      · intro c hcq
        simp only [List.head?_cons, Option.some_inj] at hcq
        subst hcq; decide
      · rw [take_len_sub, mgo_chr]
        rw [mgo_tail_eval f co hc (setCap (setCap [] 1 name) 2 e)
          (by simp only [extraPart, List.length_cons, List.length_append,
            List.length_singleton] at hfl; omega)]
        cases co with
        | none => rfl
        | some q => obtain ⟨w1, op, w2, v⟩ := q; rfl

/-! ## From the matcher to `parseRequirement` on grammar lines -/

theorem dropWhile_head_false {p : Char → Bool} {l : List Char}
    (h : ∀ c, l.head? = some c → p c = false) : l.dropWhile p = l := by
  cases l with
  | nil => rfl
  | cons a t => rw [List.dropWhile_cons, h a rfl]; simp

theorem reverse_head_append (l m : List Char) (hm : m ≠ []) :
    ((l ++ m).reverse).head? = (m.reverse).head? := by
  rw [List.reverse_append]
  cases hr : m.reverse with
  | nil => exact absurd (by simpa using hr) hm
  | cons a t => simp [hr]

theorem goTrim_of_ends {l : List Char}
    (h1 : ∀ c, l.head? = some c → goIsSpace c = false)
    (h2 : ∀ c, (l.reverse).head? = some c → goIsSpace c = false) :
    goTrim l = l := by
  unfold goTrim
  rw [dropWhile_head_false h1, dropWhile_head_false h2, List.reverse_reverse]

/-- A valid assembled requirement line is invariant under `TrimSpace`. -/
theorem goTrim_assembled (name : List Char) (eo : Option (List Char))
    (co : Option (List Char × List Char × List Char × List Char))
    (hn : ValidName name) (he : ValidExtra eo) (hc : ValidConstr co) :
    goTrim (assembleReq name eo co) = assembleReq name eo co := by
  obtain ⟨hn1, hn2⟩ := hn
  apply goTrim_of_ends
  · intro c hcq
    have hmem : c ∈ name := by
      cases hname : name with
      | nil => exact absurd hname hn1
      | cons n0 name' =>
        rw [hname] at hcq
        simp only [assembleReq, List.cons_append, List.head?_cons,
          Option.some_inj] at hcq
        rw [← hcq]
        exact List.mem_cons_self _ _
    exact (nameClass_not_space (hn2 c hmem)).1
  · intro c hcq
    cases co with
    | some q =>
      obtain ⟨w1, op, w2, v⟩ := q
      obtain ⟨hw1, hop, hw2, hv1, hv2⟩ := hc
      have hc1 : constrPart (some (w1, op, w2, v)) ≠ [] := by
        simp only [constrPart]
        rcases hop with hop | hop | hop <;> subst hop <;>
          (intro hh; cases w1 <;> simp_all)
      have hM : extraPart eo ++ constrPart (some (w1, op, w2, v)) ≠ [] := by
        intro hh
        rcases List.append_eq_nil.mp hh with ⟨_, h2⟩
        exact hc1 h2
      rw [assembleReq, reverse_head_append _ _ hM,
        reverse_head_append _ _ hc1] at hcq
      simp only [constrPart] at hcq
      have hv' : op ++ (w2 ++ v) ≠ [] := by
        intro hh
        rcases List.append_eq_nil.mp hh with ⟨_, h2⟩
        exact hv1 (List.append_eq_nil.mp h2).2
      rw [reverse_head_append _ _ hv'] at hcq
      have hwv : w2 ++ v ≠ [] := by
        intro hh
        exact hv1 (List.append_eq_nil.mp hh).2
      rw [reverse_head_append _ _ hwv, reverse_head_append _ _ hv1,
        List.head?_reverse] at hcq
      exact (verClass_not_space (hv2 c (List.mem_of_mem_getLast? hcq))).1
    | none =>
      cases eo with
      | some e =>
        have hex : extraPart (some e) ++ constrPart none
            = ('[' :: e) ++ [']'] := by
          simp [extraPart, constrPart]
        have hne : extraPart (some e) ++ constrPart none ≠ [] := by
          rw [hex]; simp
        rw [assembleReq, reverse_head_append _ _ hne, hex,
          reverse_head_append _ _ (by simp)] at hcq
        simp only [List.reverse_singleton, List.head?_cons,
          Option.some_inj] at hcq
        subst hcq
        decide
      | none =>
        have hform : assembleReq name none none = name := by
          simp [assembleReq, extraPart, constrPart]
        rw [hform, List.head?_reverse] at hcq
        exact (nameClass_not_space
          (hn2 c (List.mem_of_mem_getLast? hcq))).1

theorem reFindAux_cons (r : RE) (fuel : Nat) (c : Char) (t : List Char) :
    reFindAux r fuel (c :: t) =
      match mmatch fuel r (c :: t) [] (fun rest caps => some (rest, caps)) with
      | some (rest, caps) =>
        some (List.take ((c :: t).length - rest.length) (c :: t), caps)
      | none => reFindAux r fuel t := rfl

/-- Running `FindStringSubmatch` on a valid assembled line: the match starts at
position 0, spans the whole line, and carries the component captures. -/
theorem reFind_assembled (name : List Char) (eo : Option (List Char))
    (co : Option (List Char × List Char × List Char × List Char))
    (hn : ValidName name) (he : ValidExtra eo) (hc : ValidConstr co) :
    reFind requirementRE (assembleReq name eo co)
      = some (assembleReq name eo co, expectedCaps name eo co) := by
  rcases hname : name with _ | ⟨n0, name'⟩
  · exact absurd hname hn.1
  · subst hname
    have hT : assembleReq (n0 :: name') eo co
        = n0 :: (name' ++ (extraPart eo ++ constrPart co)) := by
      simp [assembleReq]
    unfold reFind
    rw [hT, reFindAux_cons]
    have hm := mgo_requirementRE (n0 :: name') eo co hn he hc
      (n0 :: (name' ++ (extraPart eo ++ constrPart co))).length
      (by rw [hT])
    have hstep : mmatch
        ((n0 :: (name' ++ (extraPart eo ++ constrPart co))).length + 1)
        requirementRE (n0 :: (name' ++ (extraPart eo ++ constrPart co))) []
        (fun rest caps => some (rest, caps))
        = some ([], expectedCaps (n0 :: name') eo co) := by
      show mgo (mmatch _) _ _ _ _ = _
      rw [hT] at hm
      exact hm
    rw [hstep]
    simp

/-- Running `parseRequirement` on a valid assembled grammar line: success, with the
name, operator and version components (and the extra component dropped). -/
theorem parseRequirement_assembled (name : List Char)
    (eo : Option (List Char))
    (co : Option (List Char × List Char × List Char × List Char))
    (hn : ValidName name) (he : ValidExtra eo) (hc : ValidConstr co) :
    parseRequirement ⟨assembleReq name eo co⟩
      = .ok ⟨⟨name⟩, ⟨constrOp co⟩, ⟨constrVer co⟩⟩ := by
  unfold parseRequirement
  show (match reFind requirementRE (goTrim (assembleReq name eo co)) with
    | none => Except.error "Expected match of length 5"
    | some (m0, caps) =>
      if m0 ≠ goTrim (assembleReq name eo co) then
        Except.error "Unable to parse requirement from string"
      else Except.ok (Requirement.mk ⟨getCap caps 1⟩ ⟨getCap caps 3⟩
        ⟨getCap caps 4⟩)) = _
  rw [goTrim_assembled name eo co hn he hc,
    reFind_assembled name eo co hn he hc]
  show (if assembleReq name eo co ≠ assembleReq name eo co then
      (Except.error "Unable to parse requirement from string" :
        Except String Requirement)
    else Except.ok (Requirement.mk ⟨getCap (expectedCaps name eo co) 1⟩
      ⟨getCap (expectedCaps name eo co) 3⟩
      ⟨getCap (expectedCaps name eo co) 4⟩)) = _
  rw [if_neg (fun hh => hh rfl)]
  cases eo with
  | none =>
    cases co with
    | none => rfl
    | some q => obtain ⟨w1, op, w2, v⟩ := q; rfl
  | some e =>
    cases co with
    | none => rfl
    | some q => obtain ⟨w1, op, w2, v⟩ := q; rfl

/-- C3 amended: for every requirement line matching the grammar *without an
extra component*, parsing succeeds with exactly the grammar's name, operator
and version, and re-rendering `{Name, ConstraintOp, Version}` reproduces a
line equivalent to the input under whitespace normalization; an extra
component present in the input is accepted by the parser but not preserved
(the `Requirement` structure has no Extra field). -/
theorem parseRequirement_roundtrip (name w1 op w2 v : List Char)
    (hn : ValidName name)
    (hw1 : ∀ c ∈ w1, reSpace c = true)
    (hop : op = "==".data ∨ op = ">=".data ∨ op = ">".data)
    (hw2 : ∀ c ∈ w2, reSpace c = true)
    (hv1 : v ≠ []) (hv2 : ∀ c ∈ v, verClass c = true) :
    (parseRequirement ⟨name ++ (w1 ++ (op ++ (w2 ++ v)))⟩
        = .ok ⟨⟨name⟩, ⟨op⟩, ⟨v⟩⟩
      ∧ stripWs ⟨name ++ (w1 ++ (op ++ (w2 ++ v)))⟩
        = stripWs (renderReq ⟨⟨name⟩, ⟨op⟩, ⟨v⟩⟩))
    ∧ (parseRequirement ⟨name⟩ = .ok ⟨⟨name⟩, ⟨[]⟩, ⟨[]⟩⟩
      ∧ stripWs ⟨name⟩ = stripWs (renderReq ⟨⟨name⟩, ⟨[]⟩, ⟨[]⟩⟩)) := by
  have hkeepName : name.filter (fun c => !goIsSpace c) = name :=
    List.filter_eq_self.mpr (fun a ha => by
      simp [(nameClass_not_space (hn.2 a ha)).1])
  have hkeepVer : v.filter (fun c => !goIsSpace c) = v :=
    List.filter_eq_self.mpr (fun a ha => by
      simp [(verClass_not_space (hv2 a ha)).1])
  have hdrop1 : w1.filter (fun c => !goIsSpace c) = [] :=
    List.filter_eq_nil_iff.mpr (fun a ha => by
      simp [goIsSpace_of_reSpace (hw1 a ha)])
  have hdrop2 : w2.filter (fun c => !goIsSpace c) = [] :=
    List.filter_eq_nil_iff.mpr (fun a ha => by
      simp [goIsSpace_of_reSpace (hw2 a ha)])
  have hkeepOp : op.filter (fun c => !goIsSpace c) = op := by
    rcases hop with hop | hop | hop <;> subst hop <;> rfl
  refine ⟨⟨?_, ?_⟩, ?_, ?_⟩
  · have h := parseRequirement_assembled name none (some (w1, op, w2, v))
      hn trivial ⟨hw1, hop, hw2, hv1, hv2⟩
    have hform : assembleReq name none (some (w1, op, w2, v))
        = name ++ (w1 ++ (op ++ (w2 ++ v))) := by
      simp [assembleReq, extraPart, constrPart]
    rw [hform] at h
    exact h
  · show (⟨(name ++ (w1 ++ (op ++ (w2 ++ v)))).filter
        (fun c => !goIsSpace c)⟩ : String) = ⟨((⟨name⟩ : String) ++ ⟨op⟩
          ++ ⟨v⟩).data.filter (fun c => !goIsSpace c)⟩
    have hrdata : ((⟨name⟩ : String) ++ ⟨op⟩ ++ ⟨v⟩).data
        = (name ++ op) ++ v := rfl
    rw [hrdata]
    simp only [List.filter_append, hkeepName, hkeepVer, hdrop1, hdrop2,
      hkeepOp, List.nil_append, List.append_assoc]
  · have h := parseRequirement_assembled name none none hn trivial trivial
    have hform : assembleReq name none none = name := by
      simp [assembleReq, extraPart, constrPart]
    rw [hform] at h
    exact h
  · show (⟨name.filter (fun c => !goIsSpace c)⟩ : String)
      = ⟨((⟨name⟩ : String) ++ ⟨[]⟩ ++ ⟨[]⟩).data.filter
          (fun c => !goIsSpace c)⟩
    have hrdata : ((⟨name⟩ : String) ++ ⟨[]⟩ ++ ⟨[]⟩).data
        = (name ++ []) ++ [] := rfl
    rw [hrdata]
    simp only [List.filter_append, hkeepName, List.filter_nil,
      List.append_nil, List.nil_append]

/-- Witness for C3 (amended) at the line `"foo == 1.0"`. -/
theorem parseRequirement_roundtrip_witness :
    parseRequirement "foo == 1.0" = .ok ⟨"foo", "==", "1.0"⟩
    ∧ stripWs "foo == 1.0" = stripWs (renderReq ⟨"foo", "==", "1.0"⟩)
    ∧ parseRequirement "foo" = .ok ⟨"foo", "", ""⟩ := by
  have h := parseRequirement_roundtrip "foo".data " ".data "==".data
    " ".data "1.0".data ⟨by decide, by decide⟩ (by decide) (Or.inl rfl)
    (by decide) (by decide) (by decide)
  refine ⟨?_, ?_, ?_⟩
  · exact h.1.1
  · exact h.1.2
  · exact h.2.1

/-! ## Soundness of the matcher with respect to `Matches` -/

theorem mgo_sound
    (rec : RE → List Char → Caps → (List Char → Caps → Option MatchRes) →
      Option MatchRes)
    (hrec : ∀ re s caps k res, rec re s caps k = some res →
      ∃ u v caps2, s = u ++ v ∧ Matches re u ∧ k v caps2 = some res) :
    ∀ re s caps k res, mgo rec re s caps k = some res →
      ∃ u v caps2, s = u ++ v ∧ Matches re u ∧ k v caps2 = some res := by
  intro re
  induction re with
  | eps =>
    intro s caps k res h
    exact ⟨[], s, caps, rfl, .eps, h⟩
  | pred p =>
    intro s caps k res h
    cases s with
    | nil => cases h
    | cons c t =>
      rw [mgo_pred_cons] at h
      by_cases hp : p c
      · rw [if_pos hp] at h
        exact ⟨[c], t, caps, rfl, .pred hp, h⟩
      · rw [if_neg hp] at h
        cases h
  | cat a b iha ihb =>
    intro s caps k res h
    rw [mgo_cat] at h
    obtain ⟨u1, v1, caps1, hs, hm1, hk1⟩ := iha s caps _ res h
    obtain ⟨u2, v2, caps2, hv, hm2, hk2⟩ := ihb v1 caps1 k res hk1
    exact ⟨u1 ++ u2, v2, caps2, by rw [hs, hv, List.append_assoc],
      .cat hm1 hm2, hk2⟩
  | alt a b iha ihb =>
    intro s caps k res h
    rw [mgo_alt_eq] at h
    cases hm : mgo rec a s caps k with
    | some r =>
      rw [hm] at h
      obtain ⟨u, v, caps2, hs, hma, hk⟩ := iha s caps k r hm
      exact ⟨u, v, caps2, hs, .altL hma, hk.trans h⟩
    | none =>
      rw [hm] at h
      obtain ⟨u, v, caps2, hs, hmb, hk⟩ := ihb s caps k res h
      exact ⟨u, v, caps2, hs, .altR hmb, hk⟩
  | star a iha =>
    intro s caps k res h
    rw [mgo_star_eq] at h
    cases hm : mgo rec a s caps (fun s1 c1 =>
        if s1.length < s.length then rec (.star a) s1 c1 k else none) with
    | some r =>
      rw [hm] at h
      obtain ⟨u1, v1, caps1, hs, hma, hk1⟩ := iha s caps _ r hm
      have hk1' : (if v1.length < s.length then rec (.star a) v1 caps1 k
          else none) = some r := hk1
      by_cases hlt : v1.length < s.length
      · rw [if_pos hlt] at hk1'
        obtain ⟨u2, v2, caps2, hv, hms, hk2⟩ :=
          hrec (.star a) v1 caps1 k r hk1'
        exact ⟨u1 ++ u2, v2, caps2, by rw [hs, hv, List.append_assoc],
          .starCons hma hms, hk2.trans h⟩
      · rw [if_neg hlt] at hk1'
        cases hk1'
    | none =>
      rw [hm] at h
      exact ⟨[], s, caps, rfl, .starNil, h⟩
  | group i a iha =>
    intro s caps k res h
    rw [mgo_group] at h
    obtain ⟨u, v, caps1, hs, hma, hk⟩ := iha s caps _ res h
    exact ⟨u, v, setCap caps1 i (s.take (s.length - v.length)), hs,
      .group hma, hk⟩

theorem mmatch_sound : ∀ (f : Nat) (re : RE) (s : List Char) (caps : Caps)
    (k) (res : MatchRes), mmatch f re s caps k = some res →
    ∃ u v caps2, s = u ++ v ∧ Matches re u ∧ k v caps2 = some res := by
  intro f
  induction f with
  | zero => intro re s caps k res h; cases h
  | succ f ih =>
    intro re s caps k res h
    exact mgo_sound (mmatch f) ih re s caps k res h

/-! ## Inversion of `Matches` on the requirement regex -/

theorem matches_eps {u} (h : Matches .eps u) : u = [] := by cases h; rfl

theorem matches_pred {p : Char → Bool} {u} (h : Matches (.pred p) u) :
    ∃ c, u = [c] ∧ p c = true := by
  cases h with
  | pred hp => exact ⟨_, rfl, hp⟩

theorem matches_cat {a b : RE} {u} (h : Matches (.cat a b) u) :
    ∃ u1 u2, u = u1 ++ u2 ∧ Matches a u1 ∧ Matches b u2 := by
  cases h with
  | cat h1 h2 => exact ⟨_, _, rfl, h1, h2⟩

theorem matches_alt {a b : RE} {u} (h : Matches (.alt a b) u) :
    Matches a u ∨ Matches b u := by
  cases h with
  | altL h => exact .inl h
  | altR h => exact .inr h

theorem matches_group {i : Nat} {a : RE} {u} (h : Matches (.group i a) u) :
    Matches a u := by
  cases h with
  | group h => exact h

theorem matches_star_pred {p : Char → Bool} {u}
    (h : Matches (.star (.pred p)) u) : ∀ c ∈ u, p c = true := by
  suffices H : ∀ (re : RE) (u : List Char), Matches re u →
      re = .star (.pred p) → ∀ c ∈ u, p c = true from
    fun c hc => H _ u h rfl c hc
  intro re u hm
  induction hm with
  | eps => intro he; exact absurd he (by intro hh; cases hh)
  | pred _ => intro he; exact absurd he (by intro hh; cases hh)
  | cat _ _ _ _ => intro he; exact absurd he (by intro hh; cases hh)
  | altL _ _ => intro he; exact absurd he (by intro hh; cases hh)
  | altR _ _ => intro he; exact absurd he (by intro hh; cases hh)
  | group _ _ => intro he; exact absurd he (by intro hh; cases hh)
  | starNil => intro _ c hc; cases hc
  | starCons h1 h2 ih1 ih2 =>
    intro he c hc
    injection he with ha
    subst ha
    rcases List.mem_append.mp hc with hc | hc
    · obtain ⟨d, hu, hp⟩ := matches_pred h1
      subst hu
      rcases List.mem_singleton.mp hc with rfl
      exact hp
    · exact ih2 rfl c hc

theorem matches_strRE {l u : List Char} (h : Matches (strRE l) u) : u = l := by
  induction l generalizing u with
  | nil => exact matches_eps h
  | cons c l' ih =>
    obtain ⟨u1, u2, he, h1, h2⟩ := matches_cat h
    obtain ⟨d, hu1, hp⟩ := matches_pred h1
    subst he hu1
    rw [ih h2]
    have hd := eq_of_beq hp
    subst hd
    rfl

theorem matches_plus {p : Char → Bool} {u} (h : Matches (plusRE p) u) :
    u ≠ [] ∧ ∀ c ∈ u, p c = true := by
  obtain ⟨u1, u2, he, h1, h2⟩ := matches_cat h
  obtain ⟨c, hu1, hp⟩ := matches_pred h1
  subst he hu1
  refine ⟨by simp, ?_⟩
  intro d hd
  rcases List.mem_append.mp hd with hd | hd
  · rcases List.mem_singleton.mp hd with rfl
    exact hp
  · exact matches_star_pred h2 d hd

theorem matches_opt {a : RE} {u} (h : Matches (optRE a) u) :
    Matches a u ∨ u = [] :=
  (matches_alt h).imp id matches_eps

theorem matches_opRE {u} (h : Matches opRE u) :
    u = "==".data ∨ u = ">=".data ∨ u = ">".data := by
  rcases matches_alt h with h | h
  · exact .inl (matches_strRE h)
  · rcases matches_alt h with h | h
    · exact .inr (.inl (matches_strRE h))
    · exact .inr (.inr (matches_strRE h))

theorem matches_extraRE {u} (h : Matches extraRE u) :
    ∃ e, u = '[' :: (e ++ [']']) ∧ e ≠ [] ∧ ∀ c ∈ e, nameClass c = true := by
  obtain ⟨u1, u2, he, h1, h2⟩ := matches_cat h
  obtain ⟨c, hu1, hp⟩ := matches_pred h1
  have hc := eq_of_beq hp
  obtain ⟨u3, u4, he2, h3, h4⟩ := matches_cat h2
  obtain ⟨hne, hall⟩ := matches_plus (matches_group h3)
  obtain ⟨d, hu4, hp4⟩ := matches_pred h4
  have hd := eq_of_beq hp4
  subst he hu1 he2 hu4 hc hd
  exact ⟨u3, rfl, hne, hall⟩

theorem matches_constrRE {u} (h : Matches constrRE u) :
    ∃ op w2 v, u = op ++ (w2 ++ v)
      ∧ (op = "==".data ∨ op = ">=".data ∨ op = ">".data)
      ∧ (∀ c ∈ w2, reSpace c = true)
      ∧ v ≠ [] ∧ ∀ c ∈ v, verClass c = true := by
  obtain ⟨u1, u2, he, h1, h2⟩ := matches_cat h
  have hop := matches_opRE (matches_group h1)
  obtain ⟨u3, u4, he2, h3, h4⟩ := matches_cat h2
  have hw2 := matches_star_pred h3
  obtain ⟨hne, hv⟩ := matches_plus (matches_group h4)
  subst he he2
  exact ⟨u1, u3, u4, rfl, hop, hw2, hne, hv⟩

theorem matches_requirementRE {t : List Char} (h : Matches requirementRE t) :
    ∃ name u2 u3 u4,
      t = name ++ (u2 ++ (u3 ++ u4))
      ∧ name ≠ [] ∧ (∀ c ∈ name, nameClass c = true)
      ∧ (u2 = [] ∨ ∃ e, u2 = '[' :: (e ++ [']']) ∧ e ≠ []
          ∧ ∀ c ∈ e, nameClass c = true)
      ∧ (∀ c ∈ u3, reSpace c = true)
      ∧ (u4 = [] ∨ ∃ op w2 v, u4 = op ++ (w2 ++ v)
          ∧ (op = "==".data ∨ op = ">=".data ∨ op = ">".data)
          ∧ (∀ c ∈ w2, reSpace c = true)
          ∧ v ≠ [] ∧ ∀ c ∈ v, verClass c = true) := by
  obtain ⟨u1, r1, he, h1, hrest⟩ := matches_cat h
  obtain ⟨hne, hall⟩ := matches_plus (matches_group h1)
  obtain ⟨u2, r2, he2, h2, hrest2⟩ := matches_cat hrest
  obtain ⟨u3, u4, he3, h3, h4⟩ := matches_cat hrest2
  have hu3 := matches_star_pred h3
  subst he he2 he3
  refine ⟨u1, u2, u3, u4, rfl, hne, hall, ?_, hu3, ?_⟩
  · rcases matches_opt h2 with h2 | h2
    · exact .inr (matches_extraRE h2)
    · exact .inl h2
  · rcases matches_opt h4 with h4 | h4
    · exact .inr (matches_constrRE h4)
    · exact .inl h4

/-! ## The scan stage on full-line matches -/

theorem reFindAux_nil (r : RE) (fuel : Nat) :
    reFindAux r fuel [] =
      match mmatch fuel r [] [] (fun rest caps => some (rest, caps)) with
      | some (rest, caps) => some (List.take (0 - rest.length) [], caps)
      | none => none := rfl

theorem reFindAux_length {r : RE} {fuel : Nat} :
    ∀ {s m0 : List Char} {caps : Caps},
      reFindAux r fuel s = some (m0, caps) → m0.length ≤ s.length := by
  intro s
  induction s with
  | nil =>
    intro m0 caps h
    rw [reFindAux_nil] at h
    cases hm : mmatch fuel r [] [] (fun rest caps => some (rest, caps)) with
    | some rc =>
      obtain ⟨rest, caps2⟩ := rc
      rw [hm] at h
      simp only [Option.some.injEq, Prod.mk.injEq] at h
      obtain ⟨h1, _⟩ := h
      rw [← h1]
      simp
    | none => rw [hm] at h; cases h
  | cons c t ih =>
    intro m0 caps h
    rw [reFindAux_cons] at h
    cases hm : mmatch fuel r (c :: t) []
        (fun rest caps => some (rest, caps)) with
    | some rc =>
      obtain ⟨rest, caps2⟩ := rc
      rw [hm] at h
      simp only [Option.some.injEq, Prod.mk.injEq] at h
      obtain ⟨h1, _⟩ := h
      rw [← h1]
      simp [List.length_take]
    | none =>
      rw [hm] at h
      exact le_trans (ih h) (by simp)

theorem reFindAux_full {r : RE} {fuel : Nat} :
    ∀ {s : List Char} {caps : Caps},
      reFindAux r fuel s = some (s, caps) → Matches r s := by
  intro s
  induction s with
  | nil =>
    intro caps h
    rw [reFindAux_nil] at h
    cases hm : mmatch fuel r [] [] (fun rest caps => some (rest, caps)) with
    | some rc =>
      obtain ⟨rest, caps2⟩ := rc
      obtain ⟨u, v, caps3, hs, hmr, hk⟩ :=
        mmatch_sound fuel r [] [] _ (rest, caps2) hm
      obtain ⟨hu, hv⟩ := List.append_eq_nil.mp hs.symm
      subst hu
      exact hmr
    | none => rw [hm] at h; cases h
  | cons c t ih =>
    intro caps h
    rw [reFindAux_cons] at h
    cases hm : mmatch fuel r (c :: t) []
        (fun rest caps => some (rest, caps)) with
    | some rc =>
      obtain ⟨rest, caps2⟩ := rc
      rw [hm] at h
      simp only [Option.some.injEq, Prod.mk.injEq] at h
      obtain ⟨h1, _⟩ := h
      have hlen := congrArg List.length h1
      simp only [List.length_take, List.length_cons] at hlen
      have hrest0 : rest.length = 0 := by omega
      have hrest : rest = [] := List.length_eq_zero.mp hrest0
      subst hrest
      obtain ⟨u, v, caps3, hs, hmr, hk⟩ :=
        mmatch_sound fuel r (c :: t) [] _ ([], caps2) hm
      have hv : v = [] := by
        have hk' : some (v, caps3) = some ([], caps2) := hk
        simp only [Option.some.injEq, Prod.mk.injEq] at hk'
        exact hk'.1
      subst hv
      rw [List.append_nil] at hs
      rw [hs]
      exact hmr
    | none =>
      rw [hm] at h
      have hle := reFindAux_length h
      simp at hle

theorem dropWhile_head?_false {p : Char → Bool} {l : List Char} {c : Char}
    (h : (l.dropWhile p).head? = some c) : p c = false := by
  induction l with
  | nil => cases h
  | cons a t ih =>
    rw [List.dropWhile_cons] at h
    by_cases hp : p a
    · rw [if_pos hp] at h; exact ih h
    · rw [if_neg hp] at h
      simp only [List.head?_cons, Option.some_inj] at h
      rw [← h]
      exact Bool.eq_false_iff.mpr hp

/-- The result of `TrimSpace` has no trailing white space. -/
theorem goTrim_reverse_head {l : List Char} :
    ∀ c, ((goTrim l).reverse).head? = some c → goIsSpace c = false := by
  intro c hc
  unfold goTrim at hc
  rw [List.reverse_reverse] at hc
  exact dropWhile_head?_false hc

/-- A full-line match of the requirement regex on a right-trimmed line is in
the grammar. -/
theorem inGrammar_of_matches {t : List Char} (h : Matches requirementRE t)
    (htr : ∀ c, (t.reverse).head? = some c → goIsSpace c = false) :
    InGrammar t := by
  obtain ⟨name, u2, u3, u4, ht, hn1, hn2, hu2, hu3, hu4⟩ :=
    matches_requirementRE h
  have heo : ∃ eo, ValidExtra eo ∧ u2 = extraPart eo := by
    rcases hu2 with h2 | ⟨e, he, hne, hall⟩
    · exact ⟨none, trivial, by simp [extraPart, h2]⟩
    · exact ⟨some e, ⟨hne, hall⟩, by simp [extraPart, he]⟩
  obtain ⟨eo, heo1, heo2⟩ := heo
  rcases hu4 with h4 | ⟨op, w2, v, hv4, hop, hw2, hv1, hv2⟩
  · have hu3nil : u3 = [] := by
      by_contra hne
      have ht' : t = (name ++ u2) ++ u3 := by
        rw [ht, h4, List.append_nil, List.append_assoc]
      have hh := htr
      rw [ht', reverse_head_append _ _ hne, List.head?_reverse] at hh
      cases hgl : u3.getLast? with
      | none => exact hne (List.getLast?_eq_none_iff.mp hgl)
      | some d =>
        have hd := hh d hgl
        have hmem := List.mem_of_mem_getLast? hgl
        rw [goIsSpace_of_reSpace (hu3 d hmem)] at hd
        cases hd
    exact ⟨name, eo, none, ⟨hn1, hn2⟩, heo1, trivial, by
      rw [ht, h4, hu3nil, heo2]; simp [assembleReq, constrPart]⟩
  · exact ⟨name, eo, some (u3, op, w2, v), ⟨hn1, hn2⟩, heo1,
      ⟨hu3, hop, hw2, hv1, hv2⟩, by
        rw [ht, hv4, heo2]; simp [assembleReq, constrPart]⟩

/-- C4: `parseRequirement` succeeds iff the entire input, after trimming
surrounding whitespace, matches the requirement grammar exactly; inputs
where only a proper prefix or substring matches — such as `"foo >= "` and
`"foo==1.0==2.0"` — yield a parse error, never a partially-extracted
`Requirement`. -/
theorem parseRequirement_exact (s : String) :
    ((∃ r, parseRequirement s = .ok r) ↔ InGrammar (goTrim s.data))
    ∧ parseRequirement "foo >= "
        = .error "Unable to parse requirement from string"
    ∧ parseRequirement "foo==1.0==2.0"
        = .error "Unable to parse requirement from string" := by
  refine ⟨⟨?_, ?_⟩, rfl, rfl⟩
  · rintro ⟨r, hr⟩
    unfold parseRequirement at hr
    cases hf : reFind requirementRE (goTrim s.data) with
    | none => rw [hf] at hr; cases hr
    | some mc =>
      obtain ⟨m0, caps⟩ := mc
      rw [hf] at hr
      have hr' : (if m0 ≠ goTrim s.data then
          (Except.error "Unable to parse requirement from string" :
            Except String Requirement)
        else Except.ok (Requirement.mk ⟨getCap caps 1⟩ ⟨getCap caps 3⟩
          ⟨getCap caps 4⟩)) = Except.ok r := hr
      by_cases hne : m0 ≠ goTrim s.data
      · rw [if_pos hne] at hr'; cases hr'
      · push_neg at hne
        subst hne
        exact inGrammar_of_matches (reFindAux_full hf)
          (fun c hc => goTrim_reverse_head c hc)
  · intro hg
    obtain ⟨name, eo, co, hn, he, hc, hteq⟩ := hg
    refine ⟨⟨⟨name⟩, ⟨constrOp co⟩, ⟨constrVer co⟩⟩, ?_⟩
    unfold parseRequirement
    rw [hteq, reFind_assembled name eo co hn he hc]
    show (if assembleReq name eo co ≠ assembleReq name eo co then
        (Except.error "Unable to parse requirement from string" :
          Except String Requirement)
      else Except.ok (Requirement.mk ⟨getCap (expectedCaps name eo co) 1⟩
        ⟨getCap (expectedCaps name eo co) 3⟩
        ⟨getCap (expectedCaps name eo co) 4⟩)) = _
    rw [if_neg (fun hh => hh rfl)]
    cases eo with
    | none =>
      cases co with
      | none => rfl
      | some q => obtain ⟨w1, op, w2, v⟩ := q; rfl
    | some e =>
      cases co with
      | none => rfl
      | some q => obtain ⟨w1, op, w2, v⟩ := q; rfl

end Cheerio
